import Mathlib

set_option maxRecDepth 100000

/-!
A shallow embedding of the permutation-cipher image tool
(`img_encrypt.py` / `img_decrypt.py`) and proofs about it.

Pixel buffers are modelled as 3-level nested lists of integers
(`[row][column][channel]`), Python lists as `List Int`, Python `dict`s as
association lists in insertion order, and fallible Python code as
`Except`/`Option` values.  Machine integers do not occur: all arithmetic is on
unbounded `Int`/`Nat`, exactly as in Python.
-/

/-- A pixel buffer: a 3-dimensional integer array indexed `[row][column][channel]`. -/
abbrev Img : Type := List (List (List Int))

/-- Python list indexing `l[i]`: a non-negative index below the length is read
directly, a negative index in `[-len, -1]` wraps around (`l[i] = l[len + i]`),
and any other index raises `IndexError: list index out of range`. -/
def pyListGet (l : List Int) (i : Int) : Except String Int :=
  if 0 ≤ i ∧ i < (l.length : Int) then .ok (l.getD i.toNat 0)
  else if -(l.length : Int) ≤ i ∧ i < 0 then .ok (l.getD (i + (l.length : Int)).toNat 0)
  else .error "list index out of range"

/-- Effectful map over a list in the `Except` monad: the model of a Python loop
whose body may raise — it stops at the first raised error. -/
def mapE {α β : Type} (f : α → Except String β) : List α → Except String (List β)
  | [] => .ok []
  | a :: l => do
    let b ← f a
    let bs ← mapE f l
    .ok (b :: bs)

/-- Effectful map in the `Option` monad. -/
def mapO {α β : Type} (f : α → Option β) : List α → Option (List β)
  | [] => some []
  | a :: l => do
    let b ← f a
    let bs ← mapO f l
    some (b :: bs)

/-- Storing a Python int into the `np.zeros((rows, cols, 3), dtype=int)`
output buffer: the dtype is a signed 64-bit machine integer, so a value
outside `[-2^63, 2^63)` raises `OverflowError` at the assignment. -/
def int64Store (w : Int) : Except String Int :=
  if -(2 ^ 63) ≤ w ∧ w < 2 ^ 63 then .ok w
  else .error "Python int too large to convert to C long"

/-- `encrypt_image` (img_encrypt.py, lines 74-95): the triple loop
`img1[i][j][k] = key[img[i][j][k]]` over `i < rows`, `j < cols`, `k in range(3)`,
into a freshly allocated `np.zeros((rows, cols, 3), dtype=int)` buffer.
Both the channel read `img[i][j][k]` and the key read `key[...]` use Python
list indexing semantics (`pyListGet`), and the store into the int64 output
array goes through `int64Store`. -/
def encrypt_image (img : Img) (key : List Int) : Except String Img :=
  mapE (fun row =>
    mapE (fun px =>
      mapE (fun k : Nat => (pyListGet px (k : Int)).bind (fun v =>
        (pyListGet key v).bind int64Store)) (List.range 3)) row) img

/-- The association list built by the dict comprehension
`inverse_key = {v: i for i, v in enumerate(key)}` (img_decrypt.py line 133),
listed in insertion order starting from index `i`. -/
def build_inverse (i : Nat) : List Int → List (Int × Int)
  | [] => []
  | v :: rest => (v, (i : Int)) :: build_inverse (i + 1) rest

/-- Python `dict` lookup on an insertion-ordered association list: a later
binding of the same key overrides an earlier one; `dict.get` returns `None`
for a missing key. -/
def dictLookup : List (Int × Int) → Int → Option Int
  | [], _ => none
  | (k, val) :: rest, v =>
    match dictLookup rest v with
    | some r => some r
    | none => if k = v then some val else none

/-- `inverse_key.get` (img_decrypt.py lines 133-137). -/
def inverse_get (key : List Int) (v : Int) : Option Int :=
  dictLookup (build_inverse 0 key) v

/-- Row-major flattening of a buffer: the order in which `np.vectorize`
visits the elements. -/
def flatten3 (img : Img) : List Int :=
  img.flatten.flatten

/-- The possible outcomes of `np.vectorize(inverse_key.get)(img)`
(img_decrypt.py line 137).  With no `otypes`, `np.vectorize` infers the output
dtype from the function's value on the *first* element: if that value is an
`int` the output is an integer array and any later `None` makes the cast
`int(None)` raise `TypeError`; if that first value is `None` the output dtype
is `object` and an object array containing the raw `None`s is returned; on a
size-0 input the inference itself raises `ValueError`. -/
inductive DecResult where
  | intArr (img : Img)
  | objArr (img : List (List (List (Option Int))))
  | error (msg : String)
deriving DecidableEq

/-- `decrypt_image` (img_decrypt.py, lines 124-143): builds the inverse dict
and applies `np.vectorize(inverse_key.get)` to the buffer. -/
def decrypt_image (img : Img) (key : List Int) : DecResult :=
  match flatten3 img with
  | [] => .error "cannot call vectorize on size 0 inputs unless otypes is set"
  | v :: _ =>
    match inverse_get key v with
    | none => .objArr (img.map (fun row => row.map (fun px => px.map (inverse_get key))))
    | some _ =>
      match mapO (fun row => mapO (fun px => mapO (inverse_get key) px) row) img with
      | some out => .intArr out
      | none =>
        .error "int() argument must be a string, a bytes-like object or a real number, not NoneType"

/-- The structured content of the `ValueError`s raised by `validate_key`
(img_decrypt.py lines 32-52).  The sets reported in the messages are modelled
as ascending duplicate-free lists. -/
inductive KeyError where
  | invalidLength (len : Nat)
  | missingValues (missing : List Int)
  | duplicateValues (dups : List Int)
  | notPermutation
deriving DecidableEq

/-- `expected_range = list(range(256))` (img_decrypt.py line 41). -/
def expected_range : List Int :=
  (List.range 256).map (fun n : Nat => (n : Int))

/-- `validate_key` (img_decrypt.py, lines 32-52): rejects a key whose length is
not 256; otherwise compares `sorted(key)` against `list(range(256))` and, on a
mismatch, reports the missing values if any, else the duplicated values, else
a generic failure. -/
def validate_key (key : List Int) : Except KeyError Unit :=
  if key.length ≠ 256 then .error (.invalidLength key.length)
  else
    let sorted_key := List.insertionSort (· ≤ ·) key
    if sorted_key ≠ expected_range then
      let missing := expected_range.filter (fun x => !sorted_key.contains x)
      let duplicates := (sorted_key.filter (fun x => decide (1 < sorted_key.count x))).dedup
      if missing ≠ [] then .error (.missingValues missing)
      else if duplicates ≠ [] then .error (.duplicateValues duplicates)
      else .error .notPermutation
    else .ok ()

instance {ε α : Type} [DecidableEq ε] [DecidableEq α] : DecidableEq (Except ε α) :=
  fun a b =>
    match a, b with
    | .ok x, .ok y =>
      if h : x = y then .isTrue (by rw [h]) else .isFalse (by simp [h])
    | .error x, .error y =>
      if h : x = y then .isTrue (by rw [h]) else .isFalse (by simp [h])
    | .ok _, .error _ => .isFalse (by simp)
    | .error _, .ok _ => .isFalse (by simp)

/-- A key that `validate_key` accepts. -/
abbrev IsValidKey (key : List Int) : Prop :=
  validate_key key = .ok ()

/-- One swap `x[i], x[j] = x[j], x[i]` of CPython's `random.shuffle`:
both right-hand values are read from the original list before assignment. -/
def shuffleStep (x : List Int) (i j : Nat) : List Int :=
  (x.set i (x.getD j 0)).set j (x.getD i 0)

/-- CPython `random.shuffle`:
`for i in reversed(range(1, len(x))): j = _randbelow(i + 1); x[i], x[j] = x[j], x[i]`.
The pseudorandom source is abstracted as `rand`; `rand i % (i + 1)` ranges over
exactly the values `_randbelow(i + 1)` can produce. -/
def shuffle (rand : Nat → Nat) (x : List Int) : List Int :=
  ((List.range' 1 (x.length - 1)).reverse).foldl
    (fun acc i => shuffleStep acc i (rand i % (i + 1))) x

/-- `generate_key` (img_encrypt.py, lines 48-57):
`key = list(range(256)); random.shuffle(key)`. -/
def generate_key (rand : Nat → Nat) : List Int :=
  shuffle rand ((List.range 256).map (fun n : Nat => (n : Int)))

/-- Elementwise substitution over a buffer (the shape-preserving map the
encryption loop performs when every lookup succeeds). -/
def map3 (f : Int → Int) (img : Img) : Img :=
  img.map (fun row => row.map (fun px => px.map f))

/-- The buffer has numpy shape `(rows, cols, 3)`. -/
abbrev shape3 (img : Img) (rows cols : Nat) : Prop :=
  img.length = rows ∧ ∀ row ∈ img, row.length = cols ∧ ∀ px ∈ row, px.length = 3

/-- Every element of the buffer lies in the byte range `[0, 255]`. -/
abbrev inRange (img : Img) : Prop :=
  ∀ v ∈ flatten3 img, 0 ≤ v ∧ v ≤ 255

/-- The identity permutation `[0, 1, ..., 255]`. -/
def idKey : List Int :=
  (List.range 256).map (fun n : Nat => (n : Int))

/-- The reversal permutation `[255, 254, ..., 0]`. -/
def revKey : List Int :=
  (List.range 256).map (fun n => ((255 - n : Nat) : Int))

/-! ### Facts about `validate_key` and valid keys -/

theorem sorted_expected : List.Sorted (· ≤ ·) expected_range := by
  unfold expected_range
  rw [List.Sorted, List.pairwise_map]
  exact (List.pairwise_le_range 256).imp (fun h => by omega)

theorem nodup_expected : expected_range.Nodup :=
  (List.nodup_range 256).map (fun a b h => by exact_mod_cast h)

theorem sort_eq_of_perm {key : List Int} (h : List.Perm key expected_range) :
    List.insertionSort (· ≤ ·) key = expected_range :=
  List.eq_of_perm_of_sorted ((List.perm_insertionSort _ key).trans h)
    (List.sorted_insertionSort _ key) sorted_expected

theorem length_expected : expected_range.length = 256 := by
  rw [expected_range, List.length_map, List.length_range]

theorem mem_expected_iff (v : Int) : v ∈ expected_range ↔ 0 ≤ v ∧ v < 256 := by
  simp only [expected_range, List.mem_map, List.mem_range]
  constructor
  · rintro ⟨j, hj, rfl⟩
    omega
  · rintro ⟨h0, h1⟩
    exact ⟨v.toNat, by omega, by omega⟩

theorem validate_key_ok_iff (key : List Int) :
    validate_key key = .ok () ↔
      key.length = 256 ∧ List.insertionSort (· ≤ ·) key = expected_range := by
  unfold validate_key
  constructor
  · intro h
    by_cases h1 : key.length ≠ 256
    · rw [if_pos h1] at h
      exact absurd h (by simp)
    rw [if_neg h1] at h
    by_cases h2 : List.insertionSort (· ≤ ·) key ≠ expected_range
    · rw [if_pos h2] at h
      dsimp only [] at h
      split_ifs at h
    · push_neg at h1 h2
      exact ⟨h1, h2⟩
  · rintro ⟨h1, h2⟩
    rw [if_neg (by simp [h1]), if_neg (by simp [h2])]

theorem perm_of_valid {key : List Int} (h : IsValidKey key) :
    List.Perm key expected_range := by
  rw [IsValidKey, validate_key_ok_iff] at h
  exact (List.perm_insertionSort (· ≤ ·) key).symm.trans (h.2 ▸ List.Perm.refl _)

theorem valid_of_perm {key : List Int} (h : List.Perm key expected_range) :
    IsValidKey key := by
  rw [IsValidKey, validate_key_ok_iff]
  exact ⟨h.length_eq.trans length_expected, sort_eq_of_perm h⟩

theorem valid_length {key : List Int} (h : IsValidKey key) : key.length = 256 :=
  (perm_of_valid h).length_eq.trans length_expected

theorem valid_nodup {key : List Int} (h : IsValidKey key) : key.Nodup :=
  (perm_of_valid h).symm.nodup nodup_expected

theorem valid_mem_iff {key : List Int} (h : IsValidKey key) (v : Int) :
    v ∈ key ↔ 0 ≤ v ∧ v < 256 := by
  rw [(perm_of_valid h).mem_iff, mem_expected_iff]

/-- A 256-element list containing every value of `expected_range` is a
permutation of it (the pigeonhole argument behind `validate_key`). -/
theorem perm_of_length_of_superset {key : List Int} (h1 : key.length = 256)
    (h2 : ∀ x ∈ expected_range, x ∈ key) : List.Perm key expected_range := by
  refine ((List.subperm_of_subset nodup_expected h2).perm_of_length_le ?_).symm
  rw [h1, length_expected]

/-! ### Facts about the inverse dictionary -/

theorem dictLookup_build_none {key : List Int} {v : Int} (h : v ∉ key) (n : Nat) :
    dictLookup (build_inverse n key) v = none := by
  induction key generalizing n with
  | nil => rfl
  | cons k rest ih =>
    simp only [List.mem_cons, not_or] at h
    simp only [build_inverse, dictLookup, ih h.2]
    rw [if_neg (fun hk => h.1 hk.symm)]

theorem dictLookup_build_getD {key : List Int} (hnd : key.Nodup) {i : Nat}
    (hi : i < key.length) (n : Nat) :
    dictLookup (build_inverse n key) (key.getD i 0) = some ((n + i : Nat) : Int) := by
  induction key generalizing n i with
  | nil => simp at hi
  | cons k rest ih =>
    rcases List.nodup_cons.mp hnd with ⟨hk, hrest⟩
    cases i with
    | zero =>
      simp only [List.getD_cons_zero, build_inverse, dictLookup,
        dictLookup_build_none hk (n + 1)]
      simp
    | succ j =>
      have hj : j < rest.length := by simpa using hi
      simp only [List.getD_cons_succ, build_inverse, dictLookup, ih hrest hj (n + 1)]
      norm_num
      omega

theorem dictLookup_build_bounds {key : List Int} {v : Int} (n : Nat) :
    ∀ {r : Int}, dictLookup (build_inverse n key) v = some r →
      (n : Int) ≤ r ∧ r < (n : Int) + key.length := by
  induction key generalizing n with
  | nil => intro r h; simp [build_inverse, dictLookup] at h
  | cons k rest ih =>
    intro r h
    simp only [build_inverse, dictLookup] at h
    rcases heq : dictLookup (build_inverse (n + 1) rest) v with _ | r'
    · rw [heq] at h
      split_ifs at h
      simp only [Option.some.injEq] at h
      subst h
      simp only [List.length_cons]
      push_cast
      omega
    · rw [heq] at h
      simp only [Option.some.injEq] at h
      have := ih (n + 1) heq
      subst h
      simp only [List.length_cons] at this ⊢
      push_cast at this ⊢
      omega

theorem dictLookup_build_isSome {key : List Int} {v : Int} (h : v ∈ key) (n : Nat) :
    ∃ r, dictLookup (build_inverse n key) v = some r := by
  induction key generalizing n with
  | nil => simp at h
  | cons k rest ih =>
    simp only [build_inverse, dictLookup]
    by_cases hv : v ∈ rest
    · obtain ⟨r, hr⟩ := ih hv (n + 1)
      exact ⟨r, by rw [hr]⟩
    · have hk : v = k := by
        rcases List.mem_cons.mp h with h' | h'
        · exact h'
        · exact absurd h' hv
      rcases heq : dictLookup (build_inverse (n + 1) rest) v with _ | r
      · exact ⟨n, by simp [hk]⟩
      · exact ⟨r, rfl⟩

theorem inverse_get_getD {key : List Int} (hnd : key.Nodup) {i : Nat}
    (hi : i < key.length) :
    inverse_get key (key.getD i 0) = some (i : Int) := by
  have := dictLookup_build_getD hnd hi 0
  simpa using this

theorem inverse_get_isSome_of_mem {key : List Int} {v : Int} (h : v ∈ key) :
    ∃ r, inverse_get key v = some r :=
  dictLookup_build_isSome h 0

theorem inverse_get_none_of_not_mem {key : List Int} {v : Int} (h : v ∉ key) :
    inverse_get key v = none :=
  dictLookup_build_none h 0

theorem inverse_get_bounds {key : List Int} {v r : Int}
    (h : inverse_get key v = some r) : 0 ≤ r ∧ r < key.length := by
  have := dictLookup_build_bounds 0 h
  simpa using this

/-! ### Facts about `mapE`, `mapO` and `pyListGet` -/

theorem mapE_ok_of {α β : Type} {f : α → Except String β} {g : α → β} :
    ∀ {l : List α}, (∀ a ∈ l, f a = .ok (g a)) → mapE f l = .ok (l.map g)
  | [], _ => rfl
  | a :: l, h => by
    simp only [mapE, h a (List.mem_cons_self a l), List.map_cons,
      mapE_ok_of (fun x hx => h x (List.mem_cons_of_mem a hx))]
    rfl

theorem mapE_ok_mem {α β : Type} {f : α → Except String β} :
    ∀ {l : List α} {out : List β}, mapE f l = .ok out → ∀ a ∈ l, ∃ b, f a = .ok b := by
  intro l
  induction l with
  | nil => intro out _ a ha; simp at ha
  | cons x xs ih =>
    intro out h a ha
    rcases hfx : f x with e | b
    · rw [mapE, hfx] at h
      exact absurd h (by simp [Bind.bind, Except.bind])
    rcases hrest : mapE f xs with e | bs
    · rw [mapE, hfx, hrest] at h
      exact absurd h (by simp [Bind.bind, Except.bind])
    rcases List.mem_cons.mp ha with rfl | ha'
    · exact ⟨b, hfx⟩
    · exact ih hrest a ha'

theorem mapE_error_of {α β : Type} {f : α → Except String β} {msg : String}
    (hall : ∀ a, (∃ b, f a = .ok b) ∨ f a = .error msg) :
    ∀ {l : List α}, (∃ a ∈ l, f a = .error msg) → mapE f l = .error msg := by
  intro l
  induction l with
  | nil => rintro ⟨a, ha, -⟩; simp at ha
  | cons x xs ih =>
    rintro ⟨a, ha, herr⟩
    rcases hall x with ⟨b, hb⟩ | hx
    · have hbad : ∃ a ∈ xs, f a = .error msg := by
        rcases List.mem_cons.mp ha with rfl | ha'
        · rw [hb] at herr
          exact absurd herr (by simp)
        · exact ⟨a, ha', herr⟩
      rw [mapE, hb, ih hbad]
      rfl
    · rw [mapE, hx]
      rfl

theorem mapO_some_of {α β : Type} {f : α → Option β} {g : α → β} :
    ∀ {l : List α}, (∀ a ∈ l, f a = some (g a)) → mapO f l = some (l.map g)
  | [], _ => rfl
  | a :: l, h => by
    simp only [mapO, h a (List.mem_cons_self a l), List.map_cons,
      mapO_some_of (fun x hx => h x (List.mem_cons_of_mem a hx))]
    rfl

theorem pyListGet_ok_of_nonneg {l : List Int} {i : Int} (h0 : 0 ≤ i)
    (h1 : i < l.length) : pyListGet l i = .ok (l.getD i.toNat 0) := by
  rw [pyListGet, if_pos ⟨h0, h1⟩]

theorem pyListGet_ok_of_neg {l : List Int} {i : Int} (h0 : -(l.length : Int) ≤ i)
    (h1 : i < 0) : pyListGet l i = .ok (l.getD (i + (l.length : Int)).toNat 0) := by
  rw [pyListGet, if_neg (by omega), if_pos ⟨h0, h1⟩]

theorem pyListGet_error {l : List Int} {i : Int}
    (h : i < -(l.length : Int) ∨ (l.length : Int) ≤ i) :
    pyListGet l i = .error "list index out of range" := by
  rw [pyListGet, if_neg (by omega), if_neg (by omega)]

theorem pyListGet_ok_bounds {l : List Int} {i b : Int} (h : pyListGet l i = .ok b) :
    -(l.length : Int) ≤ i ∧ i < l.length := by
  rw [pyListGet] at h
  split_ifs at h with h1 h2
  · exact ⟨by omega, h1.2⟩
  · exact ⟨h2.1, by omega⟩

/-! ### Facts about `flatten3`, `map3` and shapes -/

theorem mem_flatten3 {img : Img} {row : List (List Int)} {px : List Int} {v : Int}
    (hrow : row ∈ img) (hpx : px ∈ row) (hv : v ∈ px) : v ∈ flatten3 img :=
  List.mem_flatten.mpr ⟨px, List.mem_flatten.mpr ⟨row, hrow, hpx⟩, hv⟩

theorem flatten3_map3 (f : Int → Int) (img : Img) :
    flatten3 (map3 f img) = (flatten3 img).map f := by
  simp [flatten3, map3, List.map_flatten]

theorem map_self_of {α : Type} {f : α → α} :
    ∀ {l : List α}, (∀ a ∈ l, f a = a) → l.map f = l
  | [], _ => rfl
  | a :: l, h => by
    rw [List.map_cons, h a (List.mem_cons_self a l),
      map_self_of (fun x hx => h x (List.mem_cons_of_mem a hx))]

theorem map3_id_of {f : Int → Int} {img : Img}
    (h : ∀ v ∈ flatten3 img, f v = v) : map3 f img = img := by
  unfold map3
  refine map_self_of (fun row hrow => ?_)
  refine map_self_of (fun px hpx => ?_)
  exact map_self_of (fun v hv => h v (mem_flatten3 hrow hpx hv))

theorem shape3_map3 {f : Int → Int} {img : Img} {rows cols : Nat}
    (h : shape3 img rows cols) : shape3 (map3 f img) rows cols := by
  obtain ⟨h1, h2⟩ := h
  refine ⟨by simp [map3, h1], ?_⟩
  intro row hrow
  simp only [map3, List.mem_map] at hrow
  obtain ⟨row0, hrow0, rfl⟩ := hrow
  obtain ⟨hlen, hpx⟩ := h2 row0 hrow0
  refine ⟨by simp [hlen], ?_⟩
  intro px hpx'
  simp only [List.mem_map] at hpx'
  obtain ⟨px0, hpx0, rfl⟩ := hpx'
  simp [hpx px0 hpx0]

theorem flatten3_ne_nil {img : Img} {rows cols : Nat} (h : shape3 img rows cols)
    (hr : 1 ≤ rows) (hc : 1 ≤ cols) : flatten3 img ≠ [] := by
  obtain ⟨h1, h2⟩ := h
  rcases img with _ | ⟨row, rest⟩
  · rw [List.length_nil] at h1
    omega
  obtain ⟨hlen, hpx⟩ := h2 row (List.mem_cons_self _ _)
  rcases row with _ | ⟨px, prest⟩
  · rw [List.length_nil] at hlen
    omega
  have h3 : px.length = 3 := hpx px (List.mem_cons_self _ _)
  rcases px with _ | ⟨a, arest⟩
  · simp at h3
  simp [flatten3]

/-! ### Evaluation of `encrypt_image` and `decrypt_image` -/

theorem getD_mem {α : Type} {l : List α} {n : Nat} (h : n < l.length) (d : α) :
    l.getD n d ∈ l := by
  rw [List.getD_eq_getElem l d h]
  exact List.getElem_mem h

/-- With a 256-entry key whose entries fit in the signed 64-bit store and
every element in `[0, 256)`, the encryption loop succeeds and performs the
elementwise substitution `v ↦ key[v]`. -/
theorem encrypt_image_ok {key : List Int} {img : Img} (hlen : key.length = 256)
    (hfit : ∀ w ∈ key, -(2 ^ 63) ≤ w ∧ w < 2 ^ 63)
    (hsh : ∀ row ∈ img, ∀ px ∈ row, px.length = 3)
    (hr : ∀ v ∈ flatten3 img, 0 ≤ v ∧ v < 256) :
    encrypt_image img key = .ok (map3 (fun v => key.getD v.toNat 0) img) := by
  unfold encrypt_image map3
  refine mapE_ok_of (fun row hrow => ?_)
  refine mapE_ok_of (fun px hpx => ?_)
  obtain ⟨a, b, c, rfl⟩ := List.length_eq_three.mp (hsh row hrow px hpx)
  have hkey : ∀ v : Int, v ∈ [a, b, c] →
      (pyListGet key v).bind int64Store = .ok (key.getD v.toNat 0) := by
    intro v hv
    have h1 := hr v (mem_flatten3 hrow hpx hv)
    rw [pyListGet_ok_of_nonneg h1.1 (by rw [hlen]; omega)]
    show int64Store (key.getD v.toNat 0) = _
    have hm : key.getD v.toNat 0 ∈ key := getD_mem (by rw [hlen]; omega) 0
    rw [int64Store, if_pos (hfit _ hm)]
  have e0 : pyListGet [a, b, c] ((0 : Nat) : Int) = .ok a :=
    pyListGet_ok_of_nonneg (by simp) (by simp)
  have e1 : pyListGet [a, b, c] ((1 : Nat) : Int) = .ok b :=
    pyListGet_ok_of_nonneg (by simp) (by simp)
  have e2 : pyListGet [a, b, c] ((2 : Nat) : Int) = .ok c :=
    pyListGet_ok_of_nonneg (by simp) (by simp)
  have ka := hkey a (by simp)
  have kb := hkey b (by simp)
  have kc := hkey c (by simp)
  simp only [Except.bind] at ka kb kc
  rw [show List.range 3 = [0, 1, 2] from rfl]
  simp only [mapE, Except.bind, Bind.bind, e0, e1, e2, ka, kb, kc,
    List.map_cons, List.map_nil]

/-- The int64 store path is reachable: a 256-entry key with an entry outside
the signed 64-bit range makes `encrypt_image` raise `OverflowError` at the
assignment into the `dtype=int` output buffer, even on an in-range pixel. -/
theorem encrypt_image_overflow_example :
    (idKey.set 0 (2 ^ 100)).length = 256 ∧
      encrypt_image [[[0, 1, 2]]] (idKey.set 0 (2 ^ 100))
        = .error "Python int too large to convert to C long" :=
  ⟨by decide, by decide⟩

/-- When the buffer is nonempty and every element is in the inverse dict's
domain, `np.vectorize` takes the integer path and returns the elementwise
inverse substitution. -/
theorem decrypt_image_intArr {key : List Int} {img : Img}
    (hne : flatten3 img ≠ [])
    (hall : ∀ v ∈ flatten3 img, inverse_get key v ≠ none) :
    decrypt_image img key
      = .intArr (map3 (fun v => (inverse_get key v).getD 0) img) := by
  have hmap : mapO (fun row => mapO (fun px => mapO (inverse_get key) px) row) img
      = some (map3 (fun v => (inverse_get key v).getD 0) img) := by
    unfold map3
    refine mapO_some_of (fun row hrow => ?_)
    refine mapO_some_of (fun px hpx => ?_)
    refine mapO_some_of (fun w hw => ?_)
    have hsome := hall w (mem_flatten3 hrow hpx hw)
    rcases h' : inverse_get key w with _ | r
    · exact absurd h' hsome
    · simp [h']
  rcases hflat : flatten3 img with _ | ⟨v, t⟩
  · exact absurd hflat hne
  have hv := hall v (hflat ▸ List.mem_cons_self v t)
  rcases hv0 : inverse_get key v with _ | r
  · exact absurd hv0 hv
  simp only [decrypt_image, hflat, hv0, hmap]

/-- When the first (row-major) element is outside the inverse dict's domain,
`np.vectorize` infers `object` dtype and silently returns an object buffer. -/
theorem decrypt_image_objArr {key : List Int} {img : Img} {v : Int} {t : List Int}
    (hflat : flatten3 img = v :: t) (hv : inverse_get key v = none) :
    decrypt_image img key
      = .objArr (img.map (fun row => row.map (fun px => px.map (inverse_get key)))) := by
  simp only [decrypt_image, hflat, hv]

theorem map3_comp (f g : Int → Int) (img : Img) :
    map3 g (map3 f img) = map3 (fun v => g (f v)) img := by
  simp [map3, List.map_map, Function.comp]

/-- For a valid key, looking the encrypted value `key[v]` up in the inverse
dict gives back `v`. -/
theorem inverse_get_key_getD {key : List Int} (h : IsValidKey key) {v : Int}
    (h0 : 0 ≤ v) (h1 : v < 256) :
    inverse_get key (key.getD v.toNat 0) = some v := by
  have hlen := valid_length h
  have hi : v.toNat < key.length := by omega
  rw [inverse_get_getD (valid_nodup h) hi]
  congr 1
  omega

theorem valid_getD_mem {key : List Int} {i : Nat} (hi : i < key.length) :
    key.getD i 0 ∈ key := by
  rw [List.getD_eq_getElem key 0 hi]
  exact List.getElem_mem hi

/-- A valid key's entries (bytes) always fit in the int64 output buffer. -/
theorem fit_of_valid {key : List Int} (hkey : IsValidKey key) :
    ∀ w ∈ key, -(2 ^ 63) ≤ w ∧ w < 2 ^ 63 := by
  intro w hw
  have h := (valid_mem_iff hkey w).mp hw
  have h2 : ((2 : Int) ^ 63) = 9223372036854775808 := by norm_num
  rw [h2]
  omega

/-- C1 (amended form): for every valid key and every nonempty in-range buffer
of shape `(rows, cols, 3)`, decrypting the encryption recovers the buffer. -/
theorem C1_round_trip {key : List Int} {img : Img} {rows cols : Nat}
    (hkey : IsValidKey key) (hsh : shape3 img rows cols) (hr : inRange img)
    (hrows : 1 ≤ rows) (hcols : 1 ≤ cols) :
    ∃ enc, encrypt_image img key = .ok enc ∧ decrypt_image enc key = .intArr img := by
  have hlen := valid_length hkey
  have hr' : ∀ v ∈ flatten3 img, 0 ≤ v ∧ v < 256 := fun v hv => by
    have := hr v hv
    omega
  have henc := encrypt_image_ok hlen (fit_of_valid hkey)
    (fun row hrow px hpx => ((hsh.2 row hrow).2 px hpx)) hr'
  refine ⟨_, henc, ?_⟩
  have henc_sh := shape3_map3 (f := fun v : Int => key.getD v.toNat 0) hsh
  have hne : flatten3 (map3 (fun v : Int => key.getD v.toNat 0) img) ≠ [] :=
    flatten3_ne_nil henc_sh hrows hcols
  have hall : ∀ v ∈ flatten3 (map3 (fun v : Int => key.getD v.toNat 0) img),
      inverse_get key v ≠ none := by
    intro v hv
    rw [flatten3_map3] at hv
    obtain ⟨w, hw, rfl⟩ := List.mem_map.mp hv
    have hw' := hr' w hw
    rw [inverse_get_key_getD hkey hw'.1 hw'.2]
    simp
  rw [decrypt_image_intArr hne hall, map3_comp]
  congr 1
  apply map3_id_of
  intro v hv
  have hv' := hr' v hv
  rw [inverse_get_key_getD hkey hv'.1 hv'.2]
  rfl

/-- Witness for C1: the identity key and the single-pixel buffer
`[[[10, 20, 30]]]` of shape `(1, 1, 3)`. -/
theorem C1_round_trip_witness :
    IsValidKey idKey ∧ shape3 [[[10, 20, 30]]] 1 1 ∧ inRange [[[10, 20, 30]]] ∧
      ∃ enc, encrypt_image [[[10, 20, 30]]] idKey = .ok enc ∧
        decrypt_image enc idKey = .intArr [[[10, 20, 30]]] :=
  ⟨by decide, by decide, by decide,
    @C1_round_trip idKey [[[10, 20, 30]]] 1 1 (by decide) (by decide) (by decide)
      (by decide) (by decide)⟩

/-- Counterexample to C1 as literally stated: the empty buffer has shape
`(0, 0, 3)` and (vacuously) in-range elements, and the identity key is valid;
encryption succeeds, but decryption of the encrypted (empty) buffer raises
`ValueError` inside `np.vectorize` instead of returning the buffer. -/
theorem C1_counterexample :
    IsValidKey idKey ∧ shape3 ([] : Img) 0 0 ∧ inRange ([] : Img) ∧
      encrypt_image ([] : Img) idKey = .ok [] ∧
      decrypt_image ([] : Img) idKey
        = .error "cannot call vectorize on size 0 inputs unless otypes is set" :=
  ⟨by decide, by decide, by decide, rfl, rfl⟩

/-! ### Elementwise indexing -/

/-- Element access `img[r][c][ch]` (with empty/zero defaults out of range). -/
def elem3 (img : Img) (r c ch : Nat) : Int :=
  ((img.getD r []).getD c []).getD ch 0

theorem getD_map_lt {α β : Type} (f : α → β) (l : List α) (n : Nat)
    (h : n < l.length) (d : α) (d' : β) :
    (l.map f).getD n d' = f (l.getD n d) := by
  rw [List.getD_eq_getElem _ _ (by simpa using h), List.getD_eq_getElem _ _ h,
    List.getElem_map]

theorem elem3_map3 {f : Int → Int} {img : Img} {rows cols : Nat}
    (h : shape3 img rows cols) {r c ch : Nat}
    (hr : r < rows) (hc : c < cols) (hch : ch < 3) :
    elem3 (map3 f img) r c ch = f (elem3 img r c ch) := by
  obtain ⟨h1, h2⟩ := h
  have hr' : r < img.length := by omega
  obtain ⟨hlen, hpx⟩ := h2 (img.getD r []) (getD_mem hr' [])
  have hc' : c < (img.getD r []).length := by omega
  have hch' : ch < ((img.getD r []).getD c []).length := by
    rw [hpx ((img.getD r []).getD c []) (getD_mem hc' [])]
    omega
  unfold elem3 map3
  rw [getD_map_lt _ img r hr' [] [], getD_map_lt _ _ c hc' [] [],
    getD_map_lt f _ ch hch' 0 0]

theorem elem3_mem_flatten3 {img : Img} {rows cols : Nat} (h : shape3 img rows cols)
    {r c ch : Nat} (hr : r < rows) (hc : c < cols) (hch : ch < 3) :
    elem3 img r c ch ∈ flatten3 img := by
  obtain ⟨h1, h2⟩ := h
  have hr' : r < img.length := by omega
  obtain ⟨hlen, hpx⟩ := h2 (img.getD r []) (getD_mem hr' [])
  have hc' : c < (img.getD r []).length := by omega
  have hch' : ch < ((img.getD r []).getD c []).length := by
    rw [hpx _ (getD_mem hc' [])]
    omega
  exact mem_flatten3 (getD_mem hr' []) (getD_mem hc' []) (getD_mem hch' 0)

/-- C9 (amended form): for every valid key and in-range buffer of shape
`(rows, cols, 3)`, `encrypt_image` returns a buffer of identical shape whose
element at `(r, c, ch)` is `key[v]` where `v` is the input element there, and
`decrypt_image` likewise substitutes through the inverse dict — the latter
provided the buffer is nonempty.  Both operate on fresh output buffers; in
this pure embedding the input is unchanged by construction. -/
theorem C9_pure_substitution {key : List Int} {img : Img} {rows cols : Nat}
    (hkey : IsValidKey key) (hsh : shape3 img rows cols) (hr : inRange img) :
    (∃ out, encrypt_image img key = .ok out ∧ shape3 out rows cols ∧
      ∀ r c ch, r < rows → c < cols → ch < 3 →
        pyListGet key (elem3 img r c ch) = .ok (elem3 out r c ch)) ∧
    (1 ≤ rows → 1 ≤ cols →
      ∃ dout, decrypt_image img key = .intArr dout ∧ shape3 dout rows cols ∧
        ∀ r c ch, r < rows → c < cols → ch < 3 →
          inverse_get key (elem3 img r c ch) = some (elem3 dout r c ch)) := by
  have hlen := valid_length hkey
  have hr' : ∀ v ∈ flatten3 img, 0 ≤ v ∧ v < 256 := fun v hv => by
    have := hr v hv
    omega
  constructor
  · refine ⟨_, encrypt_image_ok hlen (fit_of_valid hkey)
      (fun row hrow px hpx => (hsh.2 row hrow).2 px hpx) hr',
      shape3_map3 hsh, ?_⟩
    intro r c ch hrr hcc hchch
    rw [elem3_map3 hsh hrr hcc hchch]
    have hb := hr' _ (elem3_mem_flatten3 hsh hrr hcc hchch)
    exact pyListGet_ok_of_nonneg hb.1 (by rw [hlen]; omega)
  · intro hrows hcols
    have hall : ∀ v ∈ flatten3 img, inverse_get key v ≠ none := by
      intro v hv
      have h1 := hr' v hv
      obtain ⟨rr, hrr⟩ :=
        inverse_get_isSome_of_mem ((valid_mem_iff hkey v).mpr ⟨h1.1, h1.2⟩)
      rw [hrr]
      simp
    refine ⟨_, decrypt_image_intArr (flatten3_ne_nil hsh hrows hcols) hall,
      shape3_map3 hsh, ?_⟩
    intro r c ch hrr hcc hchch
    rw [elem3_map3 hsh hrr hcc hchch]
    have hb := hr' _ (elem3_mem_flatten3 hsh hrr hcc hchch)
    obtain ⟨rr, hrr2⟩ :=
      inverse_get_isSome_of_mem ((valid_mem_iff hkey _).mpr ⟨hb.1, hb.2⟩)
    rw [hrr2]
    rfl

/-- Witness for C9: the identity key and the buffer `[[[1, 2, 3]]]`. -/
theorem C9_pure_substitution_witness :
    IsValidKey idKey ∧ shape3 [[[1, 2, 3]]] 1 1 ∧ inRange [[[1, 2, 3]]] ∧
      ((∃ out, encrypt_image [[[1, 2, 3]]] idKey = .ok out ∧ shape3 out 1 1 ∧
        ∀ r c ch, r < 1 → c < 1 → ch < 3 →
          pyListGet idKey (elem3 [[[1, 2, 3]]] r c ch) = .ok (elem3 out r c ch)) ∧
      (1 ≤ 1 → 1 ≤ 1 →
        ∃ dout, decrypt_image [[[1, 2, 3]]] idKey = .intArr dout ∧ shape3 dout 1 1 ∧
          ∀ r c ch, r < 1 → c < 1 → ch < 3 →
            inverse_get idKey (elem3 [[[1, 2, 3]]] r c ch) = some (elem3 dout r c ch))) :=
  ⟨by decide, by decide, by decide,
    @C9_pure_substitution idKey [[[1, 2, 3]]] 1 1 (by decide) (by decide) (by decide)⟩

/-- Counterexample to C9 as literally stated: the buffer `[[]]` has shape
`(1, 0, 3)` and in-range elements (vacuously), the identity key is valid, yet
`decrypt_image` returns an error, not a buffer of identical shape. -/
theorem C9_counterexample :
    IsValidKey idKey ∧ shape3 ([[]] : Img) 1 0 ∧ inRange ([[]] : Img) ∧
      decrypt_image ([[]] : Img) idKey
        = .error "cannot call vectorize on size 0 inputs unless otypes is set" :=
  ⟨by decide, by decide, by decide, rfl⟩

/-! ### The inverse mapping as a key (C5) -/

/-- The inverse dict materialized over the byte domain `[0, 255]` in order:
entry `v` is `inverse_key[v]`. -/
def inverseList (key : List Int) : List Int :=
  (List.range 256).map (fun v : Nat => (inverse_get key (v : Int)).getD 0)

/-- C5: for every valid key, the inverse dict built by `decrypt_image`
satisfies `inverse[key[i]] = i` for every index `i`, and the inverse mapping
is itself a valid key (a bijection on `[0, 255]`, accepted by `validate_key`). -/
theorem C5_inverse_key {key : List Int} (hkey : IsValidKey key) :
    (∀ i : Nat, i < 256 → inverse_get key (key.getD i 0) = some (i : Int)) ∧
      IsValidKey (inverseList key) := by
  have hlen := valid_length hkey
  have hnd := valid_nodup hkey
  constructor
  · intro i hi
    exact inverse_get_getD hnd (by omega)
  · refine valid_of_perm (perm_of_length_of_superset ?_ ?_)
    · simp [inverseList]
    · intro x hx
      rw [mem_expected_iff] at hx
      have hi : x.toNat < key.length := by omega
      have hkey_x : inverse_get key (key.getD x.toNat 0) = some x := by
        rw [inverse_get_getD hnd hi]
        congr 1
        omega
      have hw : 0 ≤ key.getD x.toNat 0 ∧ key.getD x.toNat 0 < 256 :=
        (valid_mem_iff hkey _).mp (valid_getD_mem hi)
      simp only [inverseList, List.mem_map]
      refine ⟨(key.getD x.toNat 0).toNat, List.mem_range.mpr (by omega), ?_⟩
      rw [show (((key.getD x.toNat 0).toNat : Nat) : Int) = key.getD x.toNat 0 by omega]
      rw [hkey_x]
      rfl

/-- Witness for C5: at the identity key. -/
theorem C5_inverse_key_witness :
    IsValidKey idKey ∧
      ((∀ i : Nat, i < 256 → inverse_get idKey (idKey.getD i 0) = some (i : Int)) ∧
        IsValidKey (inverseList idKey)) :=
  ⟨by decide, C5_inverse_key (by decide)⟩

/-! ### Out-of-domain behaviour (C2, C10) -/

theorem pyListGet_total (l : List Int) (i : Int) :
    (∃ b, pyListGet l i = .ok b) ∨ pyListGet l i = .error "list index out of range" := by
  rw [pyListGet]
  split_ifs
  · exact .inl ⟨_, rfl⟩
  · exact .inl ⟨_, rfl⟩
  · exact .inr rfl

theorem pyListGet_ok_mem {l : List Int} {i b : Int} (h : pyListGet l i = .ok b) :
    b ∈ l := by
  rw [pyListGet] at h
  split_ifs at h with h1 h2
  · obtain rfl : l.getD i.toNat 0 = b := by simpa using h
    exact getD_mem (by omega) 0
  · obtain rfl : l.getD (i + (l.length : Int)).toNat 0 = b := by simpa using h
    exact getD_mem (by omega) 0

theorem chan_total {key : List Int} (hfit : ∀ w ∈ key, -(2 ^ 63) ≤ w ∧ w < 2 ^ 63)
    (px : List Int) (k : Nat) :
    (∃ b, (pyListGet px (k : Int)).bind (fun v =>
      (pyListGet key v).bind int64Store) = .ok b) ∨
      (pyListGet px (k : Int)).bind (fun v => (pyListGet key v).bind int64Store)
        = .error "list index out of range" := by
  rcases pyListGet_total px (k : Int) with ⟨v, hv⟩ | he
  · rw [hv]
    rcases pyListGet_total key v with ⟨b, hb⟩ | he2
    · left
      refine ⟨b, ?_⟩
      show (pyListGet key v).bind int64Store = _
      rw [hb]
      show int64Store b = _
      rw [int64Store, if_pos (hfit b (pyListGet_ok_mem hb))]
    · right
      show (pyListGet key v).bind int64Store = _
      rw [he2]
      rfl
  · rw [he]
    exact .inr rfl

theorem mapE_total {α β : Type} {f : α → Except String β} {msg : String}
    (hall : ∀ a, (∃ b, f a = .ok b) ∨ f a = .error msg) :
    ∀ l : List α, (∃ out, mapE f l = .ok out) ∨ mapE f l = .error msg
  | [] => .inl ⟨[], rfl⟩
  | a :: l => by
    rcases hall a with ⟨b, hb⟩ | ha
    · rcases mapE_total hall l with ⟨out, ho⟩ | he
      · exact .inl ⟨b :: out, by rw [mapE, hb, ho]; rfl⟩
      · right
        rw [mapE, hb, he]
        rfl
    · right
      rw [mapE, ha]
      rfl

theorem px_get0 (a b c : Int) : pyListGet [a, b, c] ((0 : Nat) : Int) = .ok a :=
  pyListGet_ok_of_nonneg (by simp) (by simp)

theorem px_get1 (a b c : Int) : pyListGet [a, b, c] ((1 : Nat) : Int) = .ok b :=
  pyListGet_ok_of_nonneg (by simp) (by simp)

theorem px_get2 (a b c : Int) : pyListGet [a, b, c] ((2 : Nat) : Int) = .ok c :=
  pyListGet_ok_of_nonneg (by simp) (by simp)

/-- C2 (amended form): with any 256-entry key whose entries fit the int64
output dtype, an element at or beyond ±256 makes `encrypt_image` raise the
generic `IndexError` (which does not name the value); `decrypt_image`, by
contrast, never raises for out-of-domain values: when the first row-major
element is outside the inverse dict's domain it silently returns an object
buffer with `None` at out-of-domain positions. -/
theorem C2_out_of_domain {key : List Int} (hlen : key.length = 256)
    (hfit : ∀ w ∈ key, -(2 ^ 63) ≤ w ∧ w < 2 ^ 63) :
    (∀ (img : Img) (rows cols : Nat), shape3 img rows cols →
      (∃ v ∈ flatten3 img, 256 ≤ v ∨ v < -256) →
      encrypt_image img key = .error "list index out of range") ∧
    (∀ (img : Img) (v : Int) (t : List Int), flatten3 img = v :: t → v ∉ key →
      decrypt_image img key
        = .objArr (img.map (fun row => row.map (fun px => px.map (inverse_get key))))) := by
  constructor
  · intro img rows cols hsh hbad
    obtain ⟨v, hvmem, hvbad⟩ := hbad
    obtain ⟨px, hpxmem, hv⟩ := List.mem_flatten.mp hvmem
    obtain ⟨row, hrowmem, hpx⟩ := List.mem_flatten.mp hpxmem
    have hkeyv : pyListGet key v = .error "list index out of range" := by
      refine pyListGet_error ?_
      rw [hlen]
      omega
    unfold encrypt_image
    refine mapE_error_of (fun r => mapE_total (fun p => mapE_total (chan_total hfit p) _) r)
      ⟨row, hrowmem, ?_⟩
    refine mapE_error_of (fun p => mapE_total (chan_total hfit p) _) ⟨px, hpx, ?_⟩
    obtain ⟨a, b, c, rfl⟩ := List.length_eq_three.mp ((hsh.2 row hrowmem).2 px hpx)
    refine mapE_error_of (chan_total hfit [a, b, c]) ?_
    rcases show v = a ∨ v = b ∨ v = c by simpa using hv with hva | hvb | hvc
    · refine ⟨0, by simp, ?_⟩
      show (pyListGet [a, b, c] ((0 : Nat) : Int)).bind (fun v =>
        (pyListGet key v).bind int64Store) = _
      rw [px_get0, ← hva]
      show (pyListGet key v).bind int64Store = _
      rw [hkeyv]
      rfl
    · refine ⟨1, by simp, ?_⟩
      show (pyListGet [a, b, c] ((1 : Nat) : Int)).bind (fun v =>
        (pyListGet key v).bind int64Store) = _
      rw [px_get1, ← hvb]
      show (pyListGet key v).bind int64Store = _
      rw [hkeyv]
      rfl
    · refine ⟨2, by simp, ?_⟩
      show (pyListGet [a, b, c] ((2 : Nat) : Int)).bind (fun v =>
        (pyListGet key v).bind int64Store) = _
      rw [px_get2, ← hvc]
      show (pyListGet key v).bind int64Store = _
      rw [hkeyv]
      rfl
  · intro img v t hflat hv
    exact decrypt_image_objArr hflat (inverse_get_none_of_not_mem hv)

/-- Witness for C2: the identity key, the buffer `[[[300, 0, 0]]]` for the
encryption half, and the buffer `[[[256, 1, 2]]]` for the decryption half. -/
theorem C2_out_of_domain_witness :
    idKey.length = 256 ∧ (∀ w ∈ idKey, -(2 ^ 63) ≤ w ∧ w < 2 ^ 63) ∧
      shape3 [[[300, 0, 0]]] 1 1 ∧
      (∃ v ∈ flatten3 [[[300, 0, 0]]], 256 ≤ v ∨ v < -256) ∧
      encrypt_image [[[300, 0, 0]]] idKey = .error "list index out of range" ∧
      decrypt_image [[[256, 1, 2]]] idKey = .objArr [[[none, some 1, some 2]]] := by
  refine ⟨by decide, by decide, by decide, by decide,
    (C2_out_of_domain (by decide) (by decide)).1 [[[300, 0, 0]]] 1 1
      (by decide) (by decide), ?_⟩
  rw [(C2_out_of_domain (by decide) (by decide)).2 [[[256, 1, 2]]] 256 [1, 2] rfl
    (by decide)]
  decide

/-- Counterexample to C2 as literally stated: on the buffer `[[[256, 0, 0]]]`
(element 256 out of domain) `decrypt_image` with the identity key *returns a
buffer* (an object array with `None`), and `encrypt_image` raises a generic
IndexError whose message does not name the offending value 256. -/
theorem C2_counterexample :
    decrypt_image [[[256, 0, 0]]] idKey = .objArr [[[none, some 0, some 0]]] ∧
      encrypt_image [[[256, 0, 0]]] idKey = .error "list index out of range" :=
  ⟨by decide, by decide⟩

/-- Generalized evaluation of the encryption loop: with a 256-entry key and
every element in `[-256, 256)`, the loop succeeds, negative elements wrapping
around exactly as Python list indexing does (`key[v] = key[v % 256]`). -/
theorem encrypt_image_ok_wrap {key : List Int} {img : Img} (hlen : key.length = 256)
    (hfit : ∀ w ∈ key, -(2 ^ 63) ≤ w ∧ w < 2 ^ 63)
    (hsh : ∀ row ∈ img, ∀ px ∈ row, px.length = 3)
    (hr : ∀ v ∈ flatten3 img, -256 ≤ v ∧ v < 256) :
    encrypt_image img key = .ok (map3 (fun v => key.getD (v % 256).toNat 0) img) := by
  unfold encrypt_image map3
  refine mapE_ok_of (fun row hrow => ?_)
  refine mapE_ok_of (fun px hpx => ?_)
  obtain ⟨a, b, c, rfl⟩ := List.length_eq_three.mp (hsh row hrow px hpx)
  have hkey : ∀ v : Int, v ∈ [a, b, c] →
      (pyListGet key v).bind int64Store = .ok (key.getD (v % 256).toNat 0) := by
    intro v hv
    have h1 := hr v (mem_flatten3 hrow hpx hv)
    by_cases h0 : 0 ≤ v
    · rw [pyListGet_ok_of_nonneg h0 (by rw [hlen]; omega)]
      have h2 : v.toNat = (v % 256).toNat := by omega
      rw [h2]
      show int64Store (key.getD (v % 256).toNat 0) = _
      have hm : key.getD (v % 256).toNat 0 ∈ key := getD_mem (by rw [hlen]; omega) 0
      rw [int64Store, if_pos (hfit _ hm)]
    · rw [pyListGet_ok_of_neg (by rw [hlen]; omega) (by omega)]
      have h2 : (v + (key.length : Int)).toNat = (v % 256).toNat := by
        rw [hlen]
        omega
      rw [h2]
      show int64Store (key.getD (v % 256).toNat 0) = _
      have hm : key.getD (v % 256).toNat 0 ∈ key := getD_mem (by rw [hlen]; omega) 0
      rw [int64Store, if_pos (hfit _ hm)]
  have ka := hkey a (by simp)
  have kb := hkey b (by simp)
  have kc := hkey c (by simp)
  simp only [Except.bind] at ka kb kc
  rw [show List.range 3 = [0, 1, 2] from rfl]
  simp only [mapE, Except.bind, Bind.bind, px_get0, px_get1, px_get2, ka, kb, kc,
    List.map_cons, List.map_nil]

/-- C10 (amended form): with any 256-entry key whose entries fit the int64
output dtype, negative indices wrap (`key[v] = key[v + 256]` for `v` in
`[-256, -1]`), and a buffer whose elements all lie in `[-256, 256)` is
silently substituted — so negative out-of-domain elements are never rejected
by `encrypt_image`. -/
theorem C10_negative_wrap {key : List Int} (hlen : key.length = 256)
    (hfit : ∀ w ∈ key, -(2 ^ 63) ≤ w ∧ w < 2 ^ 63) :
    (∀ v : Int, -256 ≤ v → v < 0 → pyListGet key v = pyListGet key (v + 256)) ∧
    (∀ (img : Img) (rows cols : Nat), shape3 img rows cols →
      (∀ v ∈ flatten3 img, -256 ≤ v ∧ v < 256) →
      encrypt_image img key = .ok (map3 (fun v => key.getD (v % 256).toNat 0) img)) := by
  constructor
  · intro v hlo hhi
    rw [pyListGet_ok_of_neg (by rw [hlen]; omega) hhi,
      pyListGet_ok_of_nonneg (by omega) (by rw [hlen]; omega)]
    have : (v + (key.length : Int)).toNat = (v + 256).toNat := by omega
    rw [this]
  · intro img rows cols hsh hr
    exact encrypt_image_ok_wrap hlen hfit
      (fun row hrow px hpx => (hsh.2 row hrow).2 px hpx) hr

/-- Witness for C10: the identity key and the buffer `[[[-1, -256, 5]]]`. -/
theorem C10_negative_wrap_witness :
    idKey.length = 256 ∧ (∀ w ∈ idKey, -(2 ^ 63) ≤ w ∧ w < 2 ^ 63) ∧
      shape3 [[[-1, -256, 5]]] 1 1 ∧
      (∀ v ∈ flatten3 [[[-1, -256, 5]]], -256 ≤ v ∧ v < 256) ∧
      pyListGet idKey (-1) = pyListGet idKey (-1 + 256) ∧
      encrypt_image [[[-1, -256, 5]]] idKey
        = .ok (map3 (fun v => idKey.getD (v % 256).toNat 0) [[[-1, -256, 5]]]) :=
  ⟨by decide, by decide, by decide, by decide,
    (C10_negative_wrap (by decide) (by decide)).1 (-1) (by norm_num) (by norm_num),
    (C10_negative_wrap (by decide) (by decide)).2 [[[-1, -256, 5]]] 1 1
      (by decide) (by decide)⟩

/-- Counterexample to C10 as literally stated: the buffer `[[[-1, 300, 0]]]`
contains an element in `[-256, -1]`, yet `encrypt_image` raises (because of the
other element 300), so "never raises" does not hold for *every* buffer
containing a negative element. -/
theorem C10_counterexample :
    idKey.length = 256 ∧ shape3 [[[-1, 300, 0]]] 1 1 ∧
      (-1 : Int) ∈ flatten3 [[[-1, 300, 0]]] ∧ (-256 : Int) ≤ -1 ∧ (-1 : Int) ≤ -1 ∧
      encrypt_image [[[-1, 300, 0]]] idKey = .error "list index out of range" :=
  ⟨by decide, by decide, by decide, by decide, by decide, by decide⟩

/-! ### `validate_key` diagnostics (C3) -/

/-- Pigeonhole: a 256-element list whose sort differs from `[0..255]` always
has at least one missing value, so `validate_key` always takes the
missing-values branch and the duplicate report is unreachable. -/
theorem validate_missing_ne_nil {key : List Int} (h1 : key.length = 256)
    (h2 : List.insertionSort (· ≤ ·) key ≠ expected_range) :
    expected_range.filter
      (fun x => !(List.insertionSort (· ≤ ·) key).contains x) ≠ [] := by
  intro hm
  apply h2
  have hsub : ∀ x ∈ expected_range, x ∈ key := by
    intro x hx
    have hf := List.filter_eq_nil_iff.mp hm x hx
    simp only [Bool.not_eq_true', Bool.not_eq_false] at hf
    have : x ∈ List.insertionSort (· ≤ ·) key := by simpa using hf
    exact (List.perm_insertionSort (· ≤ ·) key).mem_iff.mp this
  exact sort_eq_of_perm (perm_of_length_of_superset h1 hsub)

/-- C3 (amended form): `validate_key` fails with `InvalidKeyLength` exactly
when the length differs from 256; a 256-element sequence whose multiset is not
`{0..255}` is rejected reporting the missing values ONLY (by pigeonhole the
missing set is never empty, so the duplicate report is dead code); the
identity permutation is accepted. -/
theorem C3_validate_key (key : List Int) :
    ((∃ n, validate_key key = .error (.invalidLength n)) ↔ key.length ≠ 256) ∧
    (key.length = 256 → List.insertionSort (· ≤ ·) key ≠ expected_range →
      validate_key key = .error (.missingValues
        (expected_range.filter
          (fun x => !(List.insertionSort (· ≤ ·) key).contains x)))) ∧
    validate_key idKey = .ok () := by
  refine ⟨⟨?_, ?_⟩, ?_, by decide⟩
  · rintro ⟨n, hn⟩ hlen
    rw [validate_key, if_neg (by simp [hlen])] at hn
    by_cases h2 : List.insertionSort (· ≤ ·) key ≠ expected_range
    · rw [if_pos h2] at hn
      dsimp only [] at hn
      split_ifs at hn <;> simp_all
    · rw [if_neg h2] at hn
      exact absurd hn (by simp)
  · intro hlen
    refine ⟨key.length, ?_⟩
    rw [validate_key, if_pos hlen]
  · intro h1 h2
    rw [validate_key, if_neg (by simp [h1]), if_pos h2]
    dsimp only []
    rw [if_pos (validate_missing_ne_nil h1 h2)]

/-- Witness for C3: the 256-element sequence `[10, 1, 2, ..., 255]` (value 0
replaced by a duplicate 10) is rejected naming its missing values. -/
theorem C3_validate_key_witness :
    (idKey.set 0 10).length = 256 ∧
      List.insertionSort (· ≤ ·) (idKey.set 0 10) ≠ expected_range ∧
      validate_key (idKey.set 0 10) = .error (.missingValues
        (expected_range.filter
          (fun x => !(List.insertionSort (· ≤ ·) (idKey.set 0 10)).contains x))) :=
  ⟨by decide, by decide, (C3_validate_key (idKey.set 0 10)).2.1 (by decide) (by decide)⟩

/-- Counterexample to C3 as literally stated: the 256-element sequence
obtained from the identity by replacing entry 7 with 3 is missing value 7 and
duplicates value 3, yet `validate_key` reports only `missing = {7}` — no error
naming the duplicated values is ever raised. -/
theorem C3_counterexample :
    (idKey.set 7 3).length = 256 ∧
      validate_key (idKey.set 7 3) = .error (.missingValues [7]) ∧
      ∀ dups, validate_key (idKey.set 7 3) ≠ .error (.duplicateValues dups) := by
  have h0 : validate_key (idKey.set 7 3) = .error (.missingValues [7]) := by decide
  refine ⟨by decide, h0, fun dups h => ?_⟩
  rw [h0] at h
  exact absurd h (by simp)

/-! ### `generate_key` (C6) -/

/-- Core swap permutation: replacing position `m` by `c` and consing the old
element is a permutation of consing `c`. -/
theorem swap_perm_lt : ∀ (t : List Int) (m : Nat) (c : Int), m < t.length →
    List.Perm (t.getD m 0 :: t.set m c) (c :: t)
  | [], m, c, h => by simp at h
  | d :: s, 0, c, _ => by
    simp only [List.getD_cons_zero, List.set_cons_zero]
    exact List.Perm.swap c d s
  | d :: s, m + 1, c, h => by
    have hm : m < s.length := by simpa using h
    simp only [List.getD_cons_succ, List.set_cons_succ]
    exact ((List.Perm.swap d _ _).trans ((swap_perm_lt s m c hm).cons d)).trans
      (List.Perm.swap c d s)

/-- One in-bounds swap of `random.shuffle` permutes the list. -/
theorem shuffleStep_perm : ∀ (x : List Int) (i j : Nat), i < x.length → j < x.length →
    List.Perm (shuffleStep x i j) x
  | [], i, _, hi, _ => by simp at hi
  | a :: t, 0, 0, _, _ => by
    simp only [shuffleStep, List.getD_cons_zero, List.set_cons_zero]
    exact List.Perm.refl _
  | a :: t, 0, m + 1, _, hj => by
    have hm : m < t.length := by simpa using hj
    simp only [shuffleStep, List.getD_cons_succ, List.getD_cons_zero,
      List.set_cons_zero, List.set_cons_succ]
    exact swap_perm_lt t m a hm
  | a :: t, n + 1, 0, hi, _ => by
    have hn : n < t.length := by simpa using hi
    simp only [shuffleStep, List.getD_cons_succ, List.getD_cons_zero,
      List.set_cons_zero, List.set_cons_succ]
    exact swap_perm_lt t n a hn
  | a :: t, n + 1, m + 1, hi, hj => by
    have hn : n < t.length := by simpa using hi
    have hm : m < t.length := by simpa using hj
    simp only [shuffleStep, List.getD_cons_succ, List.set_cons_succ]
    exact (shuffleStep_perm t n m hn hm).cons a

theorem foldl_shuffleStep_perm :
    ∀ (l : List Nat) (x : List Int) (f : Nat → Nat), (∀ i ∈ l, i < x.length) →
      List.Perm (l.foldl (fun acc i => shuffleStep acc i (f i % (i + 1))) x) x
  | [], x, _, _ => List.Perm.refl x
  | i :: l, x, f, h => by
    have hi : i < x.length := h i (List.mem_cons_self i l)
    have hj : f i % (i + 1) < x.length := by
      have h2 : f i % (i + 1) < i + 1 := Nat.mod_lt (f i) (by omega)
      omega
    have hstep := shuffleStep_perm x i (f i % (i + 1)) hi hj
    have ih := foldl_shuffleStep_perm l (shuffleStep x i (f i % (i + 1))) f
      (fun a ha => by rw [hstep.length_eq]; exact h a (List.mem_cons_of_mem i ha))
    simp only [List.foldl_cons]
    exact ih.trans hstep

/-- `random.shuffle` permutes its input, whatever the random source does. -/
theorem shuffle_perm (rand : Nat → Nat) (x : List Int) :
    List.Perm (shuffle rand x) x := by
  unfold shuffle
  apply foldl_shuffleStep_perm
  intro i hi
  simp only [List.mem_reverse, List.mem_range'_1] at hi
  omega

/-- C6: for every behaviour of the pseudorandom source, `generate_key` returns
a sequence of length 256 containing every byte value exactly once, which
therefore passes `validate_key`. -/
theorem C6_generate_key (rand : Nat → Nat) :
    validate_key (generate_key rand) = .ok () ∧
      (generate_key rand).length = 256 ∧
      ∀ v : Int, 0 ≤ v → v < 256 → (generate_key rand).count v = 1 := by
  have hperm : List.Perm (generate_key rand) expected_range := by
    unfold generate_key expected_range
    exact shuffle_perm rand _
  refine ⟨valid_of_perm hperm, hperm.length_eq.trans length_expected, ?_⟩
  intro v h0 h1
  rw [hperm.count_eq]
  exact List.count_eq_one_of_mem nodup_expected ((mem_expected_iff v).mpr ⟨h0, h1⟩)

/-- Witness for C6: the degenerate random source that always returns 0. -/
theorem C6_generate_key_witness :
    validate_key (generate_key (fun _ => 0)) = .ok () ∧
      (generate_key (fun _ => 0)).length = 256 ∧
      (0 : Int) ≤ 5 ∧ (5 : Int) < 256 ∧ (generate_key (fun _ => 0)).count 5 = 1 :=
  ⟨(C6_generate_key (fun _ => 0)).1, (C6_generate_key (fun _ => 0)).2.1,
    by norm_num, by norm_num,
    (C6_generate_key (fun _ => 0)).2.2 5 (by norm_num) (by norm_num)⟩

/-! ### The decryption flow of `main` (C4) -/

/-- `validate_image` (img_decrypt.py, lines 102-121): checks that the buffer
is 3-channel and that every value lies in `[0, 255]`.  The `ndim == 3` check
is fixed by the 3-level `Img` type; the interpolated min/max values of the
source's messages are omitted from the modelled message text.  On a buffer
with no elements the channel check passes but `np.min` itself raises
`ValueError` before any range comparison. -/
def validate_image (img : Img) : Except String Unit :=
  if ¬ (∀ row ∈ img, ∀ px ∈ row, px.length = 3) then
    .error "Image has wrong number of channels, expected 3"
  else if flatten3 img = [] then
    .error "zero-size array to reduction operation minimum which has no identity"
  else if ¬ (∀ v ∈ flatten3 img, 0 ≤ v ∧ v ≤ 255) then
    .error "Image data values out of range"
  else .ok ()

/-- The milestones of the decryption `main` (img_decrypt.py lines 221-295)
after the key and the encrypted buffer have been loaded, in execution order. -/
inductive FlowStep where
  | stepValidateKey
  | stepDecrypt
  | stepValidateImage
  | stepDisplay
deriving DecidableEq

/-- The decryption flow of `main` (img_decrypt.py lines 235-275): the loaded
key is validated (a failure exits before any decryption); then
`decrypt_image` runs directly on the loaded buffer; then `validate_image` is
applied to the *decrypted output* (on an object array the `np.min` comparison
against `None` raises `TypeError`, which aborts the run via the outer
handler); only after that is the buffer displayed and saved.  Returns the
trace of milestones reached and the buffer handed to display, if any. -/
def decrypt_flow (key : List Int) (img : Img) : List FlowStep × Option Img :=
  match validate_key key with
  | .error _ => ([.stepValidateKey], none)
  | .ok _ =>
    match decrypt_image img key with
    | .error _ => ([.stepValidateKey, .stepDecrypt], none)
    | .objArr _ => ([.stepValidateKey, .stepDecrypt, .stepValidateImage], none)
    | .intArr d =>
      match validate_image d with
      | .error _ => ([.stepValidateKey, .stepDecrypt, .stepValidateImage], none)
      | .ok _ =>
        ([.stepValidateKey, .stepDecrypt, .stepValidateImage, .stepDisplay], some d)

/-- C4 (amended form): key validation runs before decryption and a key failure
aborts the flow before any substitution; no buffer is ever displayed unless
both the key and the *output* image validation succeeded; but the loaded
buffer itself is never validated before substitution — every trace that
contains the image-validation step has the decryption step strictly before
it. -/
theorem C4_validation_order :
    (∀ (key : List Int) (img : Img) (e : KeyError), validate_key key = .error e →
      decrypt_flow key img = ([.stepValidateKey], none)) ∧
    (∀ (key : List Int) (img : Img) (d : Img), (decrypt_flow key img).2 = some d →
      validate_key key = .ok () ∧ validate_image d = .ok ()) ∧
    (∀ (key : List Int) (img : Img),
      (decrypt_flow key img).1 = [.stepValidateKey] ∨
      (decrypt_flow key img).1 = [.stepValidateKey, .stepDecrypt] ∨
      (decrypt_flow key img).1
        = [.stepValidateKey, .stepDecrypt, .stepValidateImage] ∨
      (decrypt_flow key img).1
        = [.stepValidateKey, .stepDecrypt, .stepValidateImage, .stepDisplay]) := by
  refine ⟨?_, ?_, ?_⟩
  · intro key img e h
    simp only [decrypt_flow, h]
  · intro key img d h
    rcases hv : validate_key key with e | u
    · simp [decrypt_flow, hv] at h
    rcases hd : decrypt_image img key with d' | o | m
    · rcases hvi : validate_image d' with e' | u'
      · simp [decrypt_flow, hv, hd, hvi] at h
      · simp only [decrypt_flow, hv, hd, hvi] at h
        obtain rfl : d' = d := by simpa using h
        cases u
        cases u'
        exact ⟨rfl, hvi⟩
    · simp [decrypt_flow, hv, hd] at h
    · simp [decrypt_flow, hv, hd] at h
  · intro key img
    rcases hv : validate_key key with e | u
    · left
      simp only [decrypt_flow, hv]
    rcases hd : decrypt_image img key with d' | o | m
    · rcases hvi : validate_image d' with e' | u'
      · right; right; left
        simp only [decrypt_flow, hv, hd, hvi]
      · right; right; right
        simp only [decrypt_flow, hv, hd, hvi]
    · right; right; left
      simp only [decrypt_flow, hv, hd]
    · right; left
      simp only [decrypt_flow, hv, hd]

/-- Witness for C4: an invalid 1-element key aborts the flow at key
validation, before any substitution step. -/
theorem C4_validation_order_witness :
    validate_key [0] = .error (.invalidLength 1) ∧
      decrypt_flow [0] [[[1, 2, 3]]] = ([.stepValidateKey], none) :=
  ⟨by decide, C4_validation_order.1 [0] [[[1, 2, 3]]] (.invalidLength 1) (by decide)⟩

/-- Counterexample to C4 as literally stated: with the valid identity key and
the loaded buffer `[[[300, 1, 2]]]` (whose element 300 is out of range),
the flow reaches the decryption step *before* any image validation — the
substitution runs on the unchecked buffer, and image validation only happens
afterwards, on the decrypted output. -/
theorem C4_counterexample :
    IsValidKey idKey ∧ ¬ (∀ v ∈ flatten3 [[[300, 1, 2]]], 0 ≤ v ∧ v ≤ 255) ∧
      decrypt_flow idKey [[[300, 1, 2]]]
        = ([.stepValidateKey, .stepDecrypt, .stepValidateImage], none) :=
  ⟨by decide, by decide, by decide⟩

/-! ### Text layer: Python `str`/`int` and the key file format (C7) -/

/-- The whitespace characters stripped by Python's `str.strip()` / `int()`. -/
def isPyWs (c : Char) : Bool :=
  c == ' ' || c == '\t' || c == '\n' || c == '\r' || c == '\x0b' || c == '\x0c'

/-- Python `str.strip()` on a character sequence. -/
def pyStrip (cs : List Char) : List Char :=
  ((cs.dropWhile isPyWs).reverse.dropWhile isPyWs).reverse

/-- The decimal digits of a natural number, most significant first (`str(n)`). -/
def natDigits (n : Nat) : List Char :=
  if n < 10 then [Nat.digitChar n]
  else natDigits (n / 10) ++ [Nat.digitChar (n % 10)]
termination_by n
decreasing_by exact Nat.div_lt_self (by omega) (by norm_num)

/-- Python `str(v)` for an integer. -/
def pyStr (v : Int) : List Char :=
  if v < 0 then '-' :: natDigits (-v).toNat else natDigits v.toNat

/-- Numeric value of a digit character. -/
def digitVal (c : Char) : Nat :=
  c.toNat - 48

/-- The digit/underscore body of a Python base-10 `int()` literal: nonempty,
all digits with optional single underscores strictly between digits. -/
def pyNatBody (cs : List Char) : Except String Nat :=
  if cs ≠ [] ∧ cs.all (fun c => c.isDigit || c == '_') ∧
      (cs.head?.getD '0').isDigit ∧ (cs.getLast?.getD '0').isDigit ∧
      (cs.zip cs.tail).all (fun p => !(p.1 == '_' && p.2 == '_')) then
    .ok ((cs.filter Char.isDigit).foldl (fun acc c => 10 * acc + digitVal c) 0)
  else .error "invalid literal for int() with base 10"

/-- Python `int(s)` for base 10: strips whitespace, accepts an optional sign,
then a digit body; anything else raises `ValueError`. -/
def pyInt (cs : List Char) : Except String Int :=
  match pyStrip cs with
  | [] => .error "invalid literal for int() with base 10"
  | c :: rest =>
    if c = '-' then (pyNatBody rest).map (fun n : Nat => -(n : Int))
    else if c = '+' then (pyNatBody rest).map (fun n : Nat => (n : Int))
    else (pyNatBody (c :: rest)).map (fun n : Nat => (n : Int))

/-- Python `str.split(sep)` for a one-character separator (keeps empty
tokens). -/
def splitOnChar (sep : Char) : List Char → List (List Char)
  | [] => [[]]
  | c :: rest =>
    if c = sep then [] :: splitOnChar sep rest
    else
      match splitOnChar sep rest with
      | t :: ts => (c :: t) :: ts
      | [] => [[c]]

/-- `save_key_to_file` (img_encrypt.py, lines 59-72): the text written is
`', '.join(map(str, key))`. -/
def save_key_to_file : List Int → List Char
  | [] => []
  | v :: rest =>
    match rest with
    | [] => pyStr v
    | _ :: _ => pyStr v ++ ',' :: ' ' :: save_key_to_file rest

/-- `load_key_from_file` (img_decrypt.py, lines 55-68): reads the text,
strips it, splits on `','` and converts each token with `int(s.strip())`
(the explicit inner strip is subsumed by `int`'s own stripping). -/
def load_key_from_file (text : List Char) : Except String (List Int) :=
  mapE pyInt (splitOnChar ',' (pyStrip text))

theorem natDigits_ne_nil (n : Nat) : natDigits n ≠ [] := by
  rw [natDigits]
  split_ifs <;> simp

theorem natDigits_all_digit (n : Nat) : ∀ c ∈ natDigits n, c.isDigit = true := by
  induction n using Nat.strong_induction_on with
  | _ n ih =>
    rw [natDigits]
    have hd : ∀ d, d < 10 → (Nat.digitChar d).isDigit = true := by decide
    split_ifs with h
    · intro c hc
      rw [List.mem_singleton] at hc
      subst hc
      exact hd n h
    · intro c hc
      rcases List.mem_append.mp hc with h1 | h2
      · exact ih (n / 10) (Nat.div_lt_self (by omega) (by norm_num)) c h1
      · rw [List.mem_singleton] at h2
        subst h2
        exact hd (n % 10) (Nat.mod_lt _ (by norm_num))

theorem digitsVal_natDigits (n : Nat) :
    (natDigits n).foldl (fun acc c => 10 * acc + digitVal c) 0 = n := by
  induction n using Nat.strong_induction_on with
  | _ n ih =>
    rw [natDigits]
    have hd : ∀ d, d < 10 → digitVal (Nat.digitChar d) = d := by decide
    split_ifs with h
    · simp [hd n h]
    · rw [List.foldl_append, ih (n / 10) (Nat.div_lt_self (by omega) (by norm_num))]
      simp only [List.foldl_cons, List.foldl_nil]
      rw [hd (n % 10) (Nat.mod_lt _ (by norm_num))]
      omega

theorem ws_not_digit {c : Char} (h : isPyWs c = true) : c.isDigit = false := by
  rw [isPyWs] at h
  simp only [Bool.or_eq_true, beq_iff_eq] at h
  rcases h with ((((rfl | rfl) | rfl) | rfl) | rfl) | rfl <;> decide

theorem digit_not_ws {c : Char} (h : c.isDigit = true) : isPyWs c = false := by
  cases hw : isPyWs c
  · rfl
  · rw [ws_not_digit hw] at h
    exact absurd h (by simp)

theorem digit_ne_comma {c : Char} (h : c.isDigit = true) : c ≠ ',' := by
  intro hc
  subst hc
  exact absurd h (by decide)

theorem digit_ne_underscore {c : Char} (h : c.isDigit = true) : (c == '_') = false := by
  cases hb : c == '_'
  · rfl
  · rw [show c = '_' by exact beq_iff_eq.mp hb] at h
    exact absurd h (by decide)

theorem pyNatBody_natDigits (n : Nat) : pyNatBody (natDigits n) = .ok n := by
  have hall := natDigits_all_digit n
  have hne := natDigits_ne_nil n
  rw [pyNatBody, if_pos ?cond]
  case cond =>
    refine ⟨hne, ?_, ?_, ?_, ?_⟩
    · exact List.all_eq_true.mpr (fun c hc => by rw [hall c hc]; rfl)
    · rcases hh : (natDigits n).head? with _ | c
      · simp
      · simpa using hall c (List.mem_of_mem_head? (by simp [hh]))
    · rcases hh : (natDigits n).getLast? with _ | c
      · simp
      · have hc : c ∈ natDigits n := by
          have : c ∈ (natDigits n).reverse.head? := by
            rw [List.head?_reverse, hh]
            rfl
          exact List.mem_reverse.mp (List.mem_of_mem_head? this)
        simpa using hall c hc
    · refine List.all_eq_true.mpr (fun p hp => ?_)
      have h1 : p.1 ∈ natDigits n := (List.of_mem_zip hp).1
      rw [digit_ne_underscore (hall p.1 h1)]
      rfl
  · rw [List.filter_eq_self.mpr hall, digitsVal_natDigits]

theorem pyStrip_eq_self_of_ends {cs : List Char}
    (h1 : ∀ c, cs.head? = some c → isPyWs c = false)
    (h2 : ∀ c, cs.getLast? = some c → isPyWs c = false) : pyStrip cs = cs := by
  unfold pyStrip
  have d1 : cs.dropWhile isPyWs = cs := by
    cases cs with
    | nil => rfl
    | cons c t =>
      rw [List.dropWhile_cons, if_neg (by simp [h1 c rfl])]
  rw [d1]
  have d2 : cs.reverse.dropWhile isPyWs = cs.reverse := by
    rcases hrev : cs.reverse with _ | ⟨c, t⟩
    · rfl
    · rw [List.dropWhile_cons, if_neg ?_]
      have hlast : cs.getLast? = some c := by
        rw [← List.head?_reverse, hrev]
        rfl
      simp [h2 c hlast]
  rw [d2, List.reverse_reverse]

theorem pyStrip_cons_ws {c : Char} (h : isPyWs c = true) (t : List Char) :
    pyStrip (c :: t) = pyStrip t := by
  unfold pyStrip
  rw [List.dropWhile_cons, if_pos h]

theorem pyInt_cons_ws {c : Char} (h : isPyWs c = true) (t : List Char) :
    pyInt (c :: t) = pyInt t := by
  unfold pyInt
  rw [pyStrip_cons_ws h]

theorem mem_pyStr {v : Int} {c : Char} (h : c ∈ pyStr v) :
    c.isDigit = true ∨ c = '-' := by
  rw [pyStr] at h
  split_ifs at h with hv
  · rcases List.mem_cons.mp h with rfl | h'
    · exact .inr rfl
    · exact .inl (natDigits_all_digit _ c h')
  · exact .inl (natDigits_all_digit _ c h)

theorem pyStr_ne_nil (v : Int) : pyStr v ≠ [] := by
  rw [pyStr]
  split_ifs
  · simp
  · exact natDigits_ne_nil _

theorem pyStr_not_ws {v : Int} {c : Char} (h : c ∈ pyStr v) : isPyWs c = false := by
  rcases mem_pyStr h with hd | rfl
  · exact digit_not_ws hd
  · decide

theorem pyStr_ne_comma {v : Int} {c : Char} (h : c ∈ pyStr v) : c ≠ ',' := by
  rcases mem_pyStr h with hd | rfl
  · exact digit_ne_comma hd
  · decide

theorem pyInt_pyStr (v : Int) : pyInt (pyStr v) = .ok v := by
  have hstrip : pyStrip (pyStr v) = pyStr v := by
    refine pyStrip_eq_self_of_ends (fun c hc => ?_) (fun c hc => ?_)
    · have hm : c ∈ pyStr v := List.mem_of_mem_head? (by simp [hc])
      exact pyStr_not_ws hm
    · have hm : c ∈ pyStr v := by
        have h1 : c ∈ (pyStr v).reverse.head? := by
          rw [List.head?_reverse, hc]
          rfl
        exact List.mem_reverse.mp (List.mem_of_mem_head? h1)
      exact pyStr_not_ws hm
  rw [pyInt, hstrip, pyStr]
  split_ifs with hv
  · simp only [pyNatBody_natDigits, Except.map, if_true]
    congr 1
    omega
  · rcases hnd : natDigits v.toNat with _ | ⟨c, t⟩
    · exact absurd hnd (natDigits_ne_nil _)
    have hcd : c.isDigit = true := natDigits_all_digit _ c (by rw [hnd]; simp)
    have hc1 : c ≠ '-' := by
      intro hc
      subst hc
      exact absurd hcd (by decide)
    have hc2 : c ≠ '+' := by
      intro hc
      subst hc
      exact absurd hcd (by decide)
    simp only [if_neg hc1, if_neg hc2, ← hnd, pyNatBody_natDigits, Except.map]
    congr 1
    omega

theorem splitOnChar_ne_nil (sep : Char) : ∀ l : List Char, splitOnChar sep l ≠ []
  | [] => by simp [splitOnChar]
  | c :: rest => by
    simp only [splitOnChar]
    split_ifs
    · simp
    · rcases h : splitOnChar sep rest with _ | ⟨t, ts⟩ <;> simp

theorem splitOnChar_no_sep (sep : Char) : ∀ (a : List Char), (∀ c ∈ a, c ≠ sep) →
    splitOnChar sep a = [a]
  | [], _ => rfl
  | c :: t, h => by
    simp only [splitOnChar, if_neg (h c (List.mem_cons_self c t))]
    rw [splitOnChar_no_sep sep t (fun x hx => h x (List.mem_cons_of_mem c hx))]

theorem splitOnChar_append (sep : Char) :
    ∀ (a : List Char), (∀ c ∈ a, c ≠ sep) → ∀ b,
      splitOnChar sep (a ++ sep :: b) = a :: splitOnChar sep b
  | [], _, b => by
    simp [splitOnChar]
  | c :: t, h, b => by
    rw [List.cons_append]
    simp only [splitOnChar, if_neg (h c (List.mem_cons_self c t))]
    rw [splitOnChar_append sep t (fun x hx => h x (List.mem_cons_of_mem c hx)) b]

theorem save_ne_nil (v : Int) (rest : List Int) : save_key_to_file (v :: rest) ≠ [] := by
  cases rest with
  | nil => exact pyStr_ne_nil v
  | cons w t =>
    show pyStr v ++ ',' :: ' ' :: save_key_to_file (w :: t) ≠ []
    simp

theorem save_head {v : Int} (rest : List Int) :
    (save_key_to_file (v :: rest)).head? = (pyStr v).head? := by
  cases rest with
  | nil => rfl
  | cons w t =>
    show (pyStr v ++ ',' :: ' ' :: save_key_to_file (w :: t)).head? = _
    rcases hp : pyStr v with _ | ⟨c, cs⟩
    · exact absurd hp (pyStr_ne_nil v)
    · rfl

theorem save_last_not_ws : ∀ (v : Int) (rest : List Int),
    ∃ c, (save_key_to_file (v :: rest)).getLast? = some c ∧ isPyWs c = false
  | v, [] => by
    rcases hrev : (pyStr v).reverse with _ | ⟨c, t⟩
    · rw [List.reverse_eq_nil_iff] at hrev
      exact absurd hrev (pyStr_ne_nil v)
    · refine ⟨c, ?_, ?_⟩
      · show (pyStr v).getLast? = some c
        rw [← List.head?_reverse, hrev]
        rfl
      · have hm : c ∈ pyStr v := List.mem_reverse.mp (by
          rw [hrev]
          exact List.mem_cons_self c t)
        exact pyStr_not_ws hm
  | v, w :: rest => by
    obtain ⟨c, hc, hw⟩ := save_last_not_ws w rest
    refine ⟨c, ?_, hw⟩
    show (pyStr v ++ ',' :: ' ' :: save_key_to_file (w :: rest)).getLast? = some c
    rw [List.getLast?_append_of_ne_nil _ (by simp),
      show (',' :: ' ' :: save_key_to_file (w :: rest))
        = [',', ' '] ++ save_key_to_file (w :: rest) from rfl,
      List.getLast?_append_of_ne_nil _ (save_ne_nil w rest)]
    exact hc

theorem load_save_aux : ∀ (key : List Int), key ≠ [] →
    mapE pyInt (splitOnChar ',' (save_key_to_file key)) = .ok key
  | [], h => absurd rfl h
  | [v], _ => by
    rw [show save_key_to_file [v] = pyStr v from rfl,
      splitOnChar_no_sep ',' (pyStr v) (fun c hc => pyStr_ne_comma hc)]
    simp only [mapE, pyInt_pyStr]
    rfl
  | v :: w :: rest, _ => by
    rw [show save_key_to_file (v :: w :: rest)
        = pyStr v ++ ',' :: ' ' :: save_key_to_file (w :: rest) from rfl,
      splitOnChar_append ',' (pyStr v) (fun c hc => pyStr_ne_comma hc)]
    rcases hrec : splitOnChar ',' (save_key_to_file (w :: rest)) with _ | ⟨t, ts⟩
    · exact absurd hrec (splitOnChar_ne_nil ',' _)
    have hsp : splitOnChar ',' (' ' :: save_key_to_file (w :: rest)) = (' ' :: t) :: ts := by
      simp only [splitOnChar, if_neg (show ¬ (' ' = ',') by decide)]
      rw [hrec]
    rw [hsp]
    have ih := load_save_aux (w :: rest) (by simp)
    rw [hrec] at ih
    have hmid : mapE pyInt ((' ' :: t) :: ts) = mapE pyInt (t :: ts) := by
      simp only [mapE, pyInt_cons_ws (show isPyWs ' ' = true by decide) t]
    rw [mapE, pyInt_pyStr, hmid, ih]
    rfl

/-- C7: for every valid key, deserializing the serialized key file text
recovers the key: `load_key_from_file (save_key_to_file key) = key`. -/
theorem C7_key_serialization {key : List Int} (hkey : IsValidKey key) :
    load_key_from_file (save_key_to_file key) = .ok key := by
  have hlen := valid_length hkey
  rcases key with _ | ⟨v, rest⟩
  · rw [List.length_nil] at hlen
    omega
  have hstrip : pyStrip (save_key_to_file (v :: rest)) = save_key_to_file (v :: rest) := by
    refine pyStrip_eq_self_of_ends (fun c hc => ?_) (fun c hc => ?_)
    · rw [save_head rest] at hc
      have hm : c ∈ pyStr v := List.mem_of_mem_head? (by simp [hc])
      exact pyStr_not_ws hm
    · obtain ⟨c0, hc0, hw0⟩ := save_last_not_ws v rest
      rw [hc0] at hc
      obtain rfl : c0 = c := by simpa using hc
      exact hw0
  rw [load_key_from_file, hstrip]
  exact load_save_aux (v :: rest) (by simp)

/-- Witness for C7: the identity key. -/
theorem C7_key_serialization_witness :
    IsValidKey idKey ∧ load_key_from_file (save_key_to_file idKey) = .ok idKey :=
  ⟨by decide, C7_key_serialization (by decide)⟩

/-! ### Flattened CSV format (C8) -/

/-- One-character-separated join (`','.join`, and `np.savetxt`'s `%d` row
format). -/
def joinSep (sep : Char) : List (List Char) → List Char
  | [] => []
  | t :: ts =>
    match ts with
    | [] => t
    | _ :: _ => t ++ sep :: joinSep sep ts

/-- One `np.savetxt` output row: `"%d,%d,%d\n"`. -/
def csv_row_line (px : List Int) : List Char :=
  joinSep ',' (px.map pyStr) ++ ['\n']

/-- `save_image_to_csv` (img_encrypt.py, lines 97-111): writes the
`f"{rows},{cols}\n"` header, then `np.savetxt` on the `(rows*cols, 3)`
flattening `img.reshape(-1, img.shape[-1])`, one comma-separated `%d` line
per pixel. -/
def save_image_to_csv (img : Img) (rows cols : Nat) : List Char :=
  pyStr (rows : Int) ++ ',' :: pyStr (cols : Int) ++ '\n' ::
    (img.flatten.map csv_row_line).flatten

/-- `file.readline()`: the first line (without its newline) and the rest. -/
def splitFirstLine (cs : List Char) : List Char × List Char :=
  (cs.takeWhile (fun c => !(c == '\n')),
    (cs.dropWhile (fun c => !(c == '\n'))).drop 1)

/-- `np.loadtxt(file, delimiter=',', dtype=int)` on the remaining text:
strips `#` comments, skips blank lines, parses each remaining line as
comma-separated integers, and requires a uniform column count. -/
def loadtxt_int (cs : List Char) : Except String (List (List Int)) := do
  let lines := (splitOnChar '\n' cs).map (fun l => l.takeWhile (fun c => !(c == '#')))
  let data := lines.filter (fun l => !(pyStrip l).isEmpty)
  let parsed ← mapE (fun l => mapE pyInt (splitOnChar ',' l)) data
  if parsed.all (fun r => r.length == (parsed.headD []).length) then .ok parsed
  else .error "Wrong number of columns"

/-- `reshape((rows, cols, 3))`, dimension by dimension. -/
def buildPixels : Nat → List Int → List (List Int)
  | 0, _ => []
  | n + 1, flat => flat.take 3 :: buildPixels n (flat.drop 3)

def buildRows : Nat → Nat → List Int → Img
  | 0, _, _ => []
  | r + 1, cols, flat =>
    buildPixels cols (flat.take (3 * cols)) :: buildRows r cols (flat.drop (3 * cols))

/-- `load_image_from_csv` (img_decrypt.py, lines 71-99): reads the
`rows,cols` header from the first line (`rows, cols = map(int, line.split(','))`
— exactly two values), loads the remaining lines with `np.loadtxt`, and
reshapes the flattened data to `(rows, cols, 3)`; a mismatch between declared
and actual element count is a hard error. -/
def load_image_from_csv (text : List Char) : Except String (Img × Nat × Nat) := do
  let fl := splitFirstLine text
  let header ← mapE pyInt (splitOnChar ',' (pyStrip fl.1))
  match header with
  | [r, c] =>
    if r < 0 ∨ c < 0 then .error "negative dimensions are not allowed"
    else do
      let parsed ← loadtxt_int fl.2
      let flat := parsed.flatten
      if flat.length = r.toNat * c.toNat * 3 then
        .ok (buildRows r.toNat c.toNat flat, r.toNat, c.toNat)
      else .error "cannot reshape array"
  | _ => .error "header does not unpack into rows, cols"

theorem digit_ne_of {c d : Char} (h : c.isDigit = true) (hd : d.isDigit = false) :
    c ≠ d := by
  intro hc
  subst hc
  rw [h] at hd
  exact absurd hd (by simp)

theorem take_len_append {α : Type} : ∀ (a b : List α), (a ++ b).take a.length = a
  | [], _ => rfl
  | x :: t, b => by
    simp only [List.cons_append, List.length_cons, List.take_succ_cons,
      take_len_append t b]

theorem drop_len_append {α : Type} : ∀ (a b : List α), (a ++ b).drop a.length = b
  | [], _ => rfl
  | x :: t, b => by
    simp only [List.cons_append, List.length_cons, List.drop_succ_cons,
      drop_len_append t b]

theorem takeWhile_eq_self_of {p : Char → Bool} :
    ∀ {l : List Char}, (∀ c ∈ l, p c = true) → l.takeWhile p = l
  | [], _ => rfl
  | c :: t, h => by
    rw [List.takeWhile_cons, if_pos (h c (List.mem_cons_self c t)),
      takeWhile_eq_self_of (fun x hx => h x (List.mem_cons_of_mem c hx))]

theorem splitFirstLine_append : ∀ (a : List Char), (∀ c ∈ a, (c == '\n') = false) →
    ∀ b, splitFirstLine (a ++ '\n' :: b) = (a, b)
  | [], _, b => by
    simp [splitFirstLine, List.takeWhile_cons, List.dropWhile_cons]
  | c :: t, h, b => by
    have hc := h c (List.mem_cons_self c t)
    have ih := splitFirstLine_append t (fun x hx => h x (List.mem_cons_of_mem c hx)) b
    simp only [splitFirstLine, Prod.mk.injEq] at ih
    simp only [List.cons_append, splitFirstLine, List.takeWhile_cons,
      List.dropWhile_cons, hc, Bool.not_false, if_true, Prod.mk.injEq]
    exact ⟨by rw [ih.1], by rw [ih.2]⟩

theorem mapE_map {α β γ : Type} (f : β → Except String γ) (g : α → β) :
    ∀ l : List α, mapE f (l.map g) = mapE (fun a => f (g a)) l
  | [] => rfl
  | a :: l => by
    simp only [List.map_cons, mapE, mapE_map f g l]

theorem splitOnChar_joinSep (sep : Char) :
    ∀ ts : List (List Char), ts ≠ [] → (∀ t ∈ ts, ∀ c ∈ t, c ≠ sep) →
      splitOnChar sep (joinSep sep ts) = ts
  | [], h, _ => absurd rfl h
  | [t], _, hc => by
    rw [show joinSep sep [t] = t from rfl]
    exact splitOnChar_no_sep sep t (hc t (List.mem_cons_self t []))
  | t :: t' :: ts, _, hc => by
    rw [show joinSep sep (t :: t' :: ts) = t ++ sep :: joinSep sep (t' :: ts) from rfl,
      splitOnChar_append sep t (hc t (List.mem_cons_self t _)),
      splitOnChar_joinSep sep (t' :: ts) (by simp)
        (fun x hx => hc x (List.mem_cons_of_mem t hx))]

theorem splitOnChar_nl_flatten :
    ∀ ls : List (List Char), (∀ l ∈ ls, ∀ c ∈ l, (c == '\n') = false) →
      splitOnChar '\n' ((ls.map (fun l => l ++ ['\n'])).flatten) = ls ++ [[]]
  | [], _ => rfl
  | l :: ls, h => by
    rw [List.map_cons, List.flatten_cons, List.append_assoc,
      List.singleton_append,
      splitOnChar_append '\n' l
        (fun c hc => by
          have := h l (List.mem_cons_self l ls) c hc
          intro heq
          subst heq
          simp at this),
      splitOnChar_nl_flatten ls (fun x hx => h x (List.mem_cons_of_mem l hx))]
    rfl

theorem mem_of_getLast? {α : Type} {l : List α} {a : α} (h : l.getLast? = some a) :
    a ∈ l := by
  have h1 : a ∈ l.reverse.head? := by
    rw [List.head?_reverse, h]
    rfl
  exact List.mem_reverse.mp (List.mem_of_mem_head? h1)

theorem pyStrip_eq_self_of_all {cs : List Char}
    (h : ∀ ch ∈ cs, isPyWs ch = false) : pyStrip cs = cs := by
  refine pyStrip_eq_self_of_ends (fun ch hc => ?_) (fun ch hc => ?_)
  · have hm : ch ∈ cs := List.mem_of_mem_head? (by simp [hc])
    exact h ch hm
  · exact h ch (mem_of_getLast? hc)

theorem flatten3_cons (row : List (List Int)) (rest : Img) :
    flatten3 (row :: rest) = row.flatten ++ flatten3 rest := by
  simp [flatten3, List.flatten_cons, List.flatten_append]

theorem row_flatten_length :
    ∀ {row : List (List Int)} {cols : Nat}, row.length = cols →
      (∀ px ∈ row, px.length = 3) → row.flatten.length = cols * 3 := by
  intro row
  induction row with
  | nil =>
    intro cols h1 _
    simp only [List.length_nil] at h1
    simp [← h1]
  | cons px t ih =>
    intro cols h1 h2
    rw [List.length_cons] at h1
    rw [List.flatten_cons, List.length_append,
      h2 px (List.mem_cons_self px t),
      ih rfl (fun x hx => h2 x (List.mem_cons_of_mem px hx))]
    omega

theorem flatten3_length :
    ∀ {img : Img} {rows cols : Nat}, shape3 img rows cols →
      (flatten3 img).length = rows * cols * 3 := by
  intro img
  induction img with
  | nil =>
    rintro rows cols ⟨h1, -⟩
    simp only [List.length_nil] at h1
    simp [flatten3, ← h1]
  | cons row rest ih =>
    rintro rows cols ⟨h1, h2⟩
    rw [List.length_cons] at h1
    obtain ⟨hlen, hpx⟩ := h2 row (List.mem_cons_self row rest)
    subst h1
    rw [flatten3_cons, List.length_append, row_flatten_length hlen hpx,
      ih ⟨rfl, fun r hr => h2 r (List.mem_cons_of_mem row hr)⟩]
    ring

theorem buildPixels_flatten :
    ∀ {row : List (List Int)} {cols : Nat}, row.length = cols →
      (∀ px ∈ row, px.length = 3) → buildPixels cols row.flatten = row := by
  intro row
  induction row with
  | nil =>
    intro cols h1 _
    simp only [List.length_nil] at h1
    subst h1
    rfl
  | cons px t ih =>
    intro cols h1 h2
    rw [List.length_cons] at h1
    subst h1
    have h3 := h2 px (List.mem_cons_self px t)
    rw [List.flatten_cons, buildPixels, ← h3, take_len_append, drop_len_append,
      ih rfl (fun x hx => h2 x (List.mem_cons_of_mem px hx))]

theorem buildRows_flatten :
    ∀ {img : Img} {rows cols : Nat}, shape3 img rows cols →
      buildRows rows cols (flatten3 img) = img := by
  intro img
  induction img with
  | nil =>
    rintro rows cols ⟨h1, -⟩
    simp only [List.length_nil] at h1
    subst h1
    rfl
  | cons row rest ih =>
    rintro rows cols ⟨h1, h2⟩
    rw [List.length_cons] at h1
    subst h1
    obtain ⟨hlen, hpx⟩ := h2 row (List.mem_cons_self row rest)
    have hflen : row.flatten.length = 3 * cols := by
      rw [row_flatten_length hlen hpx]
      omega
    rw [flatten3_cons, buildRows, ← hflen, take_len_append, drop_len_append,
      buildPixels_flatten hlen hpx,
      ih ⟨rfl, fun r hr => h2 r (List.mem_cons_of_mem row hr)⟩]

theorem mem_joinSep {sep : Char} :
    ∀ {ts : List (List Char)} {c : Char}, c ∈ joinSep sep ts →
      c = sep ∨ ∃ t ∈ ts, c ∈ t
  | [], c, h => by simp [joinSep] at h
  | [t], c, h => .inr ⟨t, List.mem_cons_self t [], h⟩
  | t :: t' :: ts, c, h => by
    rw [show joinSep sep (t :: t' :: ts) = t ++ sep :: joinSep sep (t' :: ts) from rfl] at h
    rcases List.mem_append.mp h with h1 | h2
    · exact .inr ⟨t, List.mem_cons_self t _, h1⟩
    · rcases List.mem_cons.mp h2 with rfl | h3
      · exact .inl rfl
      · rcases mem_joinSep h3 with rfl | ⟨u, hu, hcu⟩
        · exact .inl rfl
        · exact .inr ⟨u, List.mem_cons_of_mem t hu, hcu⟩

theorem mem_csv_body {px : List Int} {c : Char}
    (h : c ∈ joinSep ',' (px.map pyStr)) :
    c.isDigit = true ∨ c = '-' ∨ c = ',' := by
  rcases mem_joinSep h with rfl | ⟨t, ht, hc⟩
  · exact .inr (.inr rfl)
  · obtain ⟨v, hv, rfl⟩ := List.mem_map.mp ht
    rcases mem_pyStr hc with hd | rfl
    · exact .inl hd
    · exact .inr (.inl rfl)

theorem safe_char_not_nl {ch : Char}
    (h : ch.isDigit = true ∨ ch = '-' ∨ ch = ',') : (ch == '\n') = false := by
  rcases h with hd | rfl | rfl
  · rw [beq_eq_false_iff_ne]
    exact digit_ne_of hd (by decide)
  · decide
  · decide

theorem safe_char_not_hash {ch : Char}
    (h : ch.isDigit = true ∨ ch = '-' ∨ ch = ',') : (ch == '#') = false := by
  rcases h with hd | rfl | rfl
  · rw [beq_eq_false_iff_ne]
    exact digit_ne_of hd (by decide)
  · decide
  · decide

theorem safe_char_not_ws {ch : Char}
    (h : ch.isDigit = true ∨ ch = '-' ∨ ch = ',') : isPyWs ch = false := by
  rcases h with hd | rfl | rfl
  · exact digit_not_ws hd
  · decide
  · decide

theorem joinSep_ne_nil {sep : Char} {t : List Char} (ts : List (List Char))
    (h : t ≠ []) : joinSep sep (t :: ts) ≠ [] := by
  cases ts with
  | nil => exact h
  | cons t' ts' =>
    rw [show joinSep sep (t :: t' :: ts') = t ++ sep :: joinSep sep (t' :: ts') from rfl]
    simp

/-- C8: writing a pixel buffer of shape `(rows, cols, 3)` to the flattened
text format and reading it back reproduces the identical buffer together with
its dimensions. -/
theorem C8_csv_round_trip {img : Img} {rows cols : Nat} (hsh : shape3 img rows cols) :
    load_image_from_csv (save_image_to_csv img rows cols) = .ok (img, rows, cols) := by
  obtain ⟨hlenr, hsh2⟩ := hsh
  have hpx3 : ∀ px ∈ img.flatten, px.length = 3 := by
    intro px hpx
    obtain ⟨row, hrow, hpxr⟩ := List.mem_flatten.mp hpx
    exact (hsh2 row hrow).2 px hpxr
  have hhead : ∀ ch ∈ pyStr (rows : Int) ++ ',' :: pyStr (cols : Int),
      ch.isDigit = true ∨ ch = '-' ∨ ch = ',' := by
    intro ch h
    rcases List.mem_append.mp h with h1 | h2
    · rcases mem_pyStr h1 with hd | rfl
      · exact .inl hd
      · exact .inr (.inl rfl)
    · rcases List.mem_cons.mp h2 with rfl | h3
      · exact .inr (.inr rfl)
      · rcases mem_pyStr h3 with hd | rfl
        · exact .inl hd
        · exact .inr (.inl rfl)
  have h1 : splitFirstLine (save_image_to_csv img rows cols)
      = (pyStr (rows : Int) ++ ',' :: pyStr (cols : Int),
         (img.flatten.map csv_row_line).flatten) := by
    rw [show save_image_to_csv img rows cols
        = (pyStr (rows : Int) ++ ',' :: pyStr (cols : Int)) ++ '\n' ::
          (img.flatten.map csv_row_line).flatten from by
        simp [save_image_to_csv]]
    exact splitFirstLine_append _ (fun ch hch => safe_char_not_nl (hhead ch hch)) _
  have h2 : mapE pyInt (splitOnChar ','
      (pyStrip (pyStr (rows : Int) ++ ',' :: pyStr (cols : Int))))
      = .ok [(rows : Int), (cols : Int)] := by
    rw [pyStrip_eq_self_of_all (fun ch hch => safe_char_not_ws (hhead ch hch)),
      splitOnChar_append ',' (pyStr (rows : Int)) (fun ch hch => pyStr_ne_comma hch),
      splitOnChar_no_sep ',' (pyStr (cols : Int)) (fun ch hch => pyStr_ne_comma hch)]
    simp only [mapE, pyInt_pyStr]
    rfl
  have hsplit : splitOnChar '\n' ((img.flatten.map csv_row_line).flatten)
      = (img.flatten.map (fun px : List Int => joinSep ',' (px.map pyStr))) ++ [[]] := by
    rw [show img.flatten.map csv_row_line
        = (img.flatten.map (fun px : List Int => joinSep ',' (px.map pyStr))).map
            (fun l => l ++ ['\n']) from by rw [List.map_map]; rfl]
    refine splitOnChar_nl_flatten _ ?_
    intro l hl ch hch
    obtain ⟨px, hpxm, rfl⟩ := List.mem_map.mp hl
    exact safe_char_not_nl (mem_csv_body hch)
  have hx1 : ((splitOnChar '\n' ((img.flatten.map csv_row_line).flatten)).map
      (fun l => l.takeWhile (fun c => !(c == '#'))))
      = (img.flatten.map (fun px : List Int => joinSep ',' (px.map pyStr))) ++ [[]] := by
    rw [hsplit, List.map_append]
    congr 1
    · refine map_self_of (fun l hl => ?_)
      obtain ⟨px, hpxm, rfl⟩ := List.mem_map.mp hl
      refine takeWhile_eq_self_of (fun ch hch => ?_)
      rw [safe_char_not_hash (@mem_csv_body px ch hch)]
      rfl
  have hx2 : (((img.flatten.map (fun px : List Int => joinSep ',' (px.map pyStr))) ++ [[]]).filter
      (fun l => !(pyStrip l).isEmpty))
      = img.flatten.map (fun px : List Int => joinSep ',' (px.map pyStr)) := by
    rw [List.filter_append]
    have hq : ∀ l ∈ img.flatten.map (fun px : List Int => joinSep ',' (px.map pyStr)),
        (!(pyStrip l).isEmpty) = true := by
      intro l hl
      obtain ⟨px, hpxm, rfl⟩ := List.mem_map.mp hl
      rw [pyStrip_eq_self_of_all (fun ch hch => safe_char_not_ws (@mem_csv_body px ch hch))]
      obtain ⟨a, b, c, rfl⟩ := List.length_eq_three.mp (hpx3 px hpxm)
      have hne : joinSep ',' ([a, b, c].map pyStr) ≠ [] := by
        rw [List.map_cons]
        exact joinSep_ne_nil _ (pyStr_ne_nil a)
      simpa [List.isEmpty_iff] using hne
    rw [List.filter_eq_self.mpr hq,
      show (([[]] : List (List Char)).filter (fun l => !(pyStrip l).isEmpty)) = []
        from rfl,
      List.append_nil]
  have hx3 : mapE (fun l => mapE pyInt (splitOnChar ',' l))
      (img.flatten.map (fun px : List Int => joinSep ',' (px.map pyStr))) = .ok img.flatten := by
    rw [mapE_map]
    have hper : ∀ px ∈ img.flatten,
        mapE pyInt (splitOnChar ',' (joinSep ',' (px.map pyStr))) = .ok px := by
      intro px hpxm
      obtain ⟨a, b, c, rfl⟩ := List.length_eq_three.mp (hpx3 px hpxm)
      rw [splitOnChar_joinSep ',' ([a, b, c].map pyStr) (by simp) ?tok]
      case tok =>
        intro t ht ch hch
        obtain ⟨v, hv, rfl⟩ := List.mem_map.mp ht
        exact pyStr_ne_comma hch
      simp only [List.map_cons, List.map_nil, mapE, pyInt_pyStr]
      rfl
    have h := mapE_ok_of (g := fun px : List Int => px) (fun px hpxm => hper px hpxm)
    simpa using h
  have hall : (img.flatten).all
      (fun r => r.length == ((img.flatten).headD []).length) = true := by
    rcases hfl : img.flatten with _ | ⟨px0, t⟩
    · rfl
    · refine List.all_eq_true.mpr (fun r hr => ?_)
      have hr3 : r.length = 3 := hpx3 r (by rw [hfl]; exact hr)
      have h03 : px0.length = 3 := hpx3 px0 (by rw [hfl]; exact List.mem_cons_self _ _)
      simp [hr3, List.headD, h03]
  have h3 : loadtxt_int ((img.flatten.map csv_row_line).flatten) = .ok img.flatten := by
    rw [loadtxt_int, hx1, hx2, hx3]
    show (if (img.flatten).all
        (fun r => r.length == ((img.flatten).headD []).length) = true
      then Except.ok img.flatten else _) = Except.ok img.flatten
    rw [if_pos hall]
  have hlen2 : ((img.flatten.flatten).length
      = ((rows : Int)).toNat * ((cols : Int)).toNat * 3) := by
    have := flatten3_length ⟨hlenr, hsh2⟩
    rw [show img.flatten.flatten = flatten3 img from rfl, this]
    simp
  rw [load_image_from_csv, h1]
  dsimp only []
  rw [h2]
  show (if (rows : Int) < 0 ∨ (cols : Int) < 0 then
      Except.error "negative dimensions are not allowed"
    else do
      let parsed ← loadtxt_int ((img.flatten.map csv_row_line).flatten)
      if parsed.flatten.length = ((rows : Int)).toNat * ((cols : Int)).toNat * 3 then
        Except.ok (buildRows ((rows : Int)).toNat ((cols : Int)).toNat parsed.flatten,
          ((rows : Int)).toNat, ((cols : Int)).toNat)
      else Except.error "cannot reshape array") = Except.ok (img, rows, cols)
  rw [if_neg (show ¬ ((rows : Int) < 0 ∨ (cols : Int) < 0) by omega)]
  rw [h3]
  show (if (img.flatten).flatten.length
      = ((rows : Int)).toNat * ((cols : Int)).toNat * 3 then
      Except.ok (buildRows ((rows : Int)).toNat ((cols : Int)).toNat ((img.flatten).flatten),
        ((rows : Int)).toNat, ((cols : Int)).toNat)
    else Except.error "cannot reshape array") = Except.ok (img, rows, cols)
  rw [if_pos hlen2]
  have hbuild := @buildRows_flatten img rows cols ⟨hlenr, hsh2⟩
  rw [show flatten3 img = img.flatten.flatten from rfl] at hbuild
  simp only [Int.toNat_natCast, hbuild]

/-- Witness for C8: the `(2, 2, 3)` buffer holding the values `0..11`. -/
theorem C8_csv_round_trip_witness :
    shape3 [[[0, 1, 2], [3, 4, 5]], [[6, 7, 8], [9, 10, 11]]] 2 2 ∧
      load_image_from_csv
          (save_image_to_csv [[[0, 1, 2], [3, 4, 5]], [[6, 7, 8], [9, 10, 11]]] 2 2)
        = .ok ([[[0, 1, 2], [3, 4, 5]], [[6, 7, 8], [9, 10, 11]]], 2, 2) :=
  ⟨by decide,
    @C8_csv_round_trip [[[0, 1, 2], [3, 4, 5]], [[6, 7, 8], [9, 10, 11]]] 2 2 (by decide)⟩
